import Mathlib

/-!
Verification of the RoWordNet similarity engine.

This file gives a shallow embedding of the taxonomy-graph engine of the
repository (loader `rowordnet_loader.py` and the eight similarity measures
under `backend/algorithms/`), and proves or refutes the stated properties
of the specification.

Modelling conventions:
* Synsets are identified by their string id (`Node`); the loader's tables
  (word index, hypernym/hyponym relations, part of speech, definitions,
  literals) are finite association lists inside a `Loader` structure.
* Python floats are idealised as rationals (`ℚ`).  The transcendental
  `math.log` cannot be embedded computably, so every measure that uses
  information content takes the logarithm as an explicit parameter
  `logf : ℚ → ℚ`; no theorem below relies on any property of `logf`.
* The breadth-first loops of the source are written as fuel-indexed
  recursions; the fuel bounds are generous size-derived bounds, and the
  theorems that depend on termination prove that the fuel is never
  exhausted.
-/

set_option maxRecDepth 4000

abbrev Node := String

/-- The in-memory state of `RoWordNetLoader` after `_build_word_index`:
`synset_ids` models the keys of `synset_cache`, the four tables model the
hypernym/hyponym out-edges and the per-synset part of speech, definition
and literal list, and `word_tbl` models `word_to_synsets`. -/
structure Loader where
  synset_ids : List Node
  hyper_tbl : List (Node × List Node)
  hypo_tbl : List (Node × List Node)
  pos_tbl : List (Node × Char)
  defn_tbl : List (Node × String)
  lit_tbl : List (Node × List String)
  word_tbl : List (String × List Node)

/-- `get_hypernyms`: hypernym out-neighbours; `[]` for an unknown id
(the source catches the exception and returns `[]`). -/
def get_hypernyms (L : Loader) (x : Node) : List Node :=
  (L.hyper_tbl.lookup x).getD []

/-- `get_hyponyms`: hyponym out-neighbours; `[]` for an unknown id. -/
def get_hyponyms (L : Loader) (x : Node) : List Node :=
  (L.hypo_tbl.lookup x).getD []

/-- `get_synset_pos` composed with `get_synset`: the normalised
part-of-speech letter of a synset, defaulting to `'n'`. -/
def get_synset_pos (L : Loader) (x : Node) : Char :=
  (L.pos_tbl.lookup x).getD 'n'

/-- `get_definition`: gloss text of a synset, `""` when unknown. -/
def get_definition (L : Loader) (x : Node) : String :=
  (L.defn_tbl.lookup x).getD ""

/-- `get_synset_literals` via `get_synset`: the literals of a synset,
`[]` when the synset is unknown. -/
def get_literals (L : Loader) (x : Node) : List String :=
  (L.lit_tbl.lookup x).getD []

/-- `get_related_synsets`: hypernyms then hyponyms. -/
def get_related_synsets (L : Loader) (x : Node) : List Node :=
  get_hypernyms L x ++ get_hyponyms L x

/-- All targets appearing in the hypernym table; a finite superset of every
node the upward breadth-first searches can ever enqueue. -/
def allHyperTargets (L : Loader) : List Node :=
  (L.hyper_tbl.map Prod.snd).flatten

/-- All targets appearing in the hyponym table. -/
def allHypoTargets (L : Loader) : List Node :=
  (L.hypo_tbl.map Prod.snd).flatten

/-- The loop of `get_depth`: breadth-first search upward.  The queue holds
`(node, depth)` pairs; a popped node already visited is skipped; a popped
node with no hypernyms is a root and its depth is returned; otherwise its
unvisited hypernyms are enqueued one level deeper.  When the queue runs
out the source falls through to the default depth 1; fuel exhaustion
returns the same default (and is proved unreachable for `depth_fuel`). -/
def depth_go (L : Loader) : Nat → List (Node × Nat) → List Node → Nat
  | _, [], _ => 1
  | 0, _ :: _, _ => 1
  | fuel + 1, (x, d) :: rest, visited =>
    if x ∈ visited then depth_go L fuel rest visited
    else
      let hs := get_hypernyms L x
      if hs = [] then d
      else
        depth_go L fuel
          (rest ++ (hs.filter (fun h => h ∉ x :: visited)).map (fun h => (h, d + 1)))
          (x :: visited)

/-- Fuel bound for `depth_go`, derived from the measure
`(unvisited universe nodes) * (branching + 2) + queue length`. -/
def depth_fuel (L : Loader) (s : Node) : Nat :=
  ((s :: allHyperTargets L).dedup.length + 1) * ((allHyperTargets L).length + 2) + 1

/-- `get_depth`: depth of a synset, root depth is 1. -/
def get_depth (L : Loader) (s : Node) : Nat :=
  depth_go L (depth_fuel L s) [(s, 1)] []

/-- `get_max_depth`: the constant per-part-of-speech table
`{'n': 20, 'v': 15, 'a': 10, 'r': 10}` with default 20. -/
def get_max_depth (pos : Char) : Nat :=
  (([('n', 20), ('v', 15), ('a', 10), ('r', 10)] : List (Char × Nat)).lookup pos).getD 20

/-- The loop of `_count_descendants`: breadth-first search downward
counting every node popped for the first time. -/
def count_go (L : Loader) : Nat → List Node → List Node → Nat → Nat
  | _, [], _, count => count
  | 0, _ :: _, _, count => count
  | fuel + 1, x :: rest, visited, count =>
    if x ∈ visited then count_go L fuel rest visited count
    else
      count_go L fuel
        (rest ++ (get_hyponyms L x).filter (fun h => h ∉ x :: visited))
        (x :: visited) (count + 1)

/-- Fuel bound for `count_go`. -/
def count_fuel (L : Loader) (s : Node) : Nat :=
  ((s :: allHypoTargets L).dedup.length + 1) * ((allHypoTargets L).length + 2) + 1

/-- `_count_descendants`. -/
def count_descendants (L : Loader) (s : Node) : Nat :=
  count_go L (count_fuel L s) [s] [] 0

/-- `get_information_content`: `-log(count / (total + 1))` when the ratio is
positive, otherwise 0.  `logf` stands for `math.log`. -/
def information_content (L : Loader) (logf : ℚ → ℚ) (s : Node) : ℚ :=
  let count : ℚ := count_descendants L s
  let total : ℚ := L.synset_ids.length + 1
  let prob := count / total
  if 0 < prob then -(logf prob) else 0

/-- Merged neighbour list used by `find_shortest_path_length`:
hypernyms then hyponyms. -/
def spl_neighbors (L : Loader) (x : Node) : List Node :=
  get_hypernyms L x ++ get_hyponyms L x

/-- Inner neighbour loop of one expansion step of
`find_shortest_path_length`: each neighbour not yet in this side's visited
map is recorded at distance `d + 1` and appended to this side's queue; if
it already occurs in the other side's visited map the total distance is
returned at once (`Sum.inl`). -/
def spl_expand (vOther : List (Node × Nat)) (d : Nat) :
    List Node → List (Node × Nat) → List (Node × Nat) →
    Sum Nat (List (Node × Nat) × List (Node × Nat))
  | [], vOwn, q => Sum.inr (vOwn, q)
  | n :: ns, vOwn, q =>
    if (vOwn.lookup n).isSome then spl_expand vOther d ns vOwn q
    else
      match vOther.lookup n with
      | some k => Sum.inl (d + 1 + k)
      | none => spl_expand vOther d ns ((n, d + 1) :: vOwn) (q ++ [(n, d + 1)])

/-- One side of an iteration of the bidirectional search: pop the head of
this side's queue (if any); if it occurs in the other side's visited map
return the combined distance, else expand its merged neighbours. -/
def spl_side (L : Loader) (q : List (Node × Nat))
    (vOwn vOther : List (Node × Nat)) :
    Sum Nat (List (Node × Nat) × List (Node × Nat)) :=
  match q with
  | [] => Sum.inr (q, vOwn)
  | (c, d) :: rest =>
    match vOther.lookup c with
    | some k => Sum.inl (d + k)
    | none =>
      match spl_expand vOther d (spl_neighbors L c) vOwn rest with
      | Sum.inl r => Sum.inl r
      | Sum.inr (vOwn2, q2) => Sum.inr (q2, vOwn2)

/-- The `while queue1 or queue2` loop of `find_shortest_path_length`,
expanding one node from each side per iteration; `-1` when the frontiers
never meet (also on fuel exhaustion, matching the fall-through result). -/
def spl_go (L : Loader) :
    Nat → List (Node × Nat) → List (Node × Nat) →
    List (Node × Nat) → List (Node × Nat) → Int
  | 0, _, _, _, _ => -1
  | fuel + 1, q1, q2, v1, v2 =>
    match q1, q2 with
    | [], [] => -1
    | _, _ =>
      match spl_side L q1 v1 v2 with
      | Sum.inl r => (r : Int)
      | Sum.inr (q1n, v1n) =>
        match spl_side L q2 v2 v1n with
        | Sum.inl r => (r : Int)
        | Sum.inr (q2n, v2n) => spl_go L fuel q1n q2n v1n v2n

/-- Fuel bound for `spl_go`. -/
def spl_fuel (L : Loader) (a b : Node) : Nat :=
  ((a :: b :: (allHyperTargets L ++ allHypoTargets L)).dedup.length + 2) *
    ((allHyperTargets L).length + (allHypoTargets L).length + 2) + 2

/-- `find_shortest_path_length`: 0 on equal ids, else bidirectional
breadth-first search over the merged adjacency; `-1` when no meeting. -/
def find_shortest_path_length (L : Loader) (a b : Node) : Int :=
  if a = b then 0
  else spl_go L (spl_fuel L a b) [(a, 0)] [(b, 0)] [(a, 0)] [(b, 0)]

/-- The loop of `_get_all_ancestors`: each popped node's hypernyms not yet
recorded are appended (in order) to both the ancestor list and the queue. -/
def anc_go (L : Loader) : Nat → List Node → List Node → List Node
  | _, [], anc => anc
  | 0, _ :: _, anc => anc
  | fuel + 1, x :: rest, anc =>
    let step :=
      (get_hypernyms L x).foldl
        (fun (p : List Node × List Node) h =>
          if h ∈ p.1 then p else (p.1 ++ [h], p.2 ++ [h]))
        (anc, [])
    anc_go L fuel (rest ++ step.2) step.1

/-- Fuel bound for `anc_go`: one pop per recorded ancestor plus the seed. -/
def anc_fuel (L : Loader) : Nat :=
  (allHyperTargets L).dedup.length + 2

/-- `_get_all_ancestors` (insertion-ordered; the source keeps a Python set,
whose contents this list models). -/
def get_all_ancestors (L : Loader) (s : Node) : List Node :=
  anc_go L (anc_fuel L) [s] []

/-- The selection scan of `find_lcs`: running
`(deepest, max_depth)` state starting from `(none, -1)`, updated on a
strictly greater depth. -/
def lcs_scan (L : Loader) (l : List Node) : Option Node × Int :=
  l.foldl
    (fun (p : Option Node × Int) x =>
      let d : Int := get_depth L x
      if d > p.2 then (some x, d) else p)
    (none, -1)

/-- `ancestors(x) ∪ {x}` of `find_lcs`, modelled by appending the synset
itself when absent (Python set `add`). -/
def lcs_self_set (L : Loader) (x : Node) : List Node :=
  let anc := get_all_ancestors L x
  if x ∈ anc then anc else anc ++ [x]

/-- The common-ancestor set of `find_lcs`: the first set filtered by
membership in the second (`ancestors1.intersection(ancestors2)`). -/
def lcs_common (L : Loader) (a b : Node) : List Node :=
  (lcs_self_set L a).filter (fun x => x ∈ lcs_self_set L b)

/-- `find_lcs`: deepest common ancestor. -/
def find_lcs (L : Loader) (a b : Node) : Option Node :=
  if a = b then some a
  else if lcs_common L a b = [] then none
  else (lcs_scan L (lcs_common L a b)).1

/-- `PathSimilarity.calculate_synset_similarity`. -/
def path_similarity (L : Loader) (a b : Node) : ℚ :=
  if a = b then 1
  else
    let pl := find_shortest_path_length L a b
    if pl ≤ 0 then 0 else 1 / ((pl : ℚ) + 1)

/-- `WupSimilarity.calculate_synset_similarity`. -/
def wup_similarity (L : Loader) (a b : Node) : ℚ :=
  if a = b then 1
  else
    match find_lcs L a b with
    | none => 0
    | some lcs =>
      let denom : ℚ := (get_depth L a : ℚ) + (get_depth L b : ℚ)
      if denom = 0 then 0 else 2 * (get_depth L lcs : ℚ) / denom

/-- `LinSimilarity.calculate_synset_similarity`. -/
def lin_similarity (L : Loader) (logf : ℚ → ℚ) (a b : Node) : ℚ :=
  if a = b then 1
  else
    match find_lcs L a b with
    | none => 0
    | some lcs =>
      let denom := information_content L logf a + information_content L logf b
      if denom = 0 then 0 else 2 * information_content L logf lcs / denom

/-- `ResSimilarity.calculate_synset_similarity`. -/
def res_similarity (L : Loader) (logf : ℚ → ℚ) (a b : Node) : ℚ :=
  if a = b then information_content L logf a
  else
    match find_lcs L a b with
    | none => 0
    | some lcs => information_content L logf lcs

/-- `JcnSimilarity.MAX_SIMILARITY`. -/
def jcn_max_similarity : ℚ := 10000000000

/-- `JcnSimilarity.calculate_synset_similarity`. -/
def jcn_similarity (L : Loader) (logf : ℚ → ℚ) (a b : Node) : ℚ :=
  if a = b then jcn_max_similarity
  else
    match find_lcs L a b with
    | none => 0
    | some lcs =>
      let distance :=
        information_content L logf a + information_content L logf b -
          2 * information_content L logf lcs
      if distance ≤ 0 then jcn_max_similarity else 1 / distance

/-- `LchSimilarity.calculate_synset_similarity`. -/
def lch_similarity (L : Loader) (logf : ℚ → ℚ) (a b : Node) : ℚ :=
  if a = b then
    -(logf (1 / (2 * (get_max_depth (get_synset_pos L a) : ℚ) + 1)))
  else
    let pl := find_shortest_path_length L a b
    if pl < 0 then 0
    else
      let numerator : ℚ := (pl : ℚ) + 1
      let denominator : ℚ := 2 * (get_max_depth (get_synset_pos L a) : ℚ) + 1
      if numerator ≥ denominator then 0 else -(logf (numerator / denominator))

/-- `LeskSimilarity.STOP_WORDS`, transcribed from the source. -/
def stop_words : List String :=
  ["a", "an", "the", "is", "are", "was", "were", "be", "been",
   "being", "have", "has", "had", "do", "does", "did", "will",
   "would", "could", "should", "may", "might", "must", "shall",
   "can", "of", "in", "to", "for", "with", "on", "at", "by",
   "from", "as", "into", "through", "during", "before", "after",
   "above", "below", "between", "under", "again", "further",
   "then", "once", "here", "there", "when", "where", "why",
   "how", "all", "each", "few", "more", "most", "other", "some",
   "such", "no", "nor", "not", "only", "own", "same", "so",
   "than", "too", "very", "just", "and", "but", "if", "or",
   "because", "while", "although", "this", "that", "these",
   "those", "it", "its", "i", "you", "he", "she", "we", "they",
   "what", "which", "who", "whom", "whose",
   "un", "o", "una", "este", "sunt", "era", "fost", "fi", "fiind",
   "avea", "are", "au", "de", "la", "cu", "pe", "in", "pentru",
   "din", "ca", "prin", "despre", "spre", "intre", "sub", "peste",
   "dupa", "inainte", "aici", "acolo", "cand", "unde", "cum",
   "toti", "toate", "fiecare", "mai", "cel", "cea", "cei", "cele",
   "alt", "alta", "alti", "alte", "nici", "numai", "doar", "si",
   "dar", "daca", "sau", "pentru", "ca", "aceasta", "acest",
   "aceste", "acestea", "el", "ea", "ei", "ele", "noi", "voi",
   "ce", "care", "cine", "cui"]

/-- Stop words as character lists. -/
def stop_words_l : List (List Char) := stop_words.map String.data

/-- Characters matched by the character class `[a-zA-ZĀ-ſ]` of
the `_tokenize` regex.  Note it contains Latin Extended-A (so the old
cedilla forms of Romanian letters) but not Latin-1 letters (â, î) nor
Latin Extended-B (the comma-below forms ș, ț). -/
def is_class_char (c : Char) : Bool :=
  (0x61 ≤ c.toNat && c.toNat ≤ 0x7A) || (0x41 ≤ c.toNat && c.toNat ≤ 0x5A) ||
    (0x100 ≤ c.toNat && c.toNat ≤ 0x17F)

/-- Word characters in the sense of the regex metacharacter `\b` (Python
`\w`): ASCII alphanumerics, underscore, and — restricted to the Latin
ranges this development exercises — the letters U+00C0 to U+024F except
the multiplication and division signs. -/
def is_word_char (c : Char) : Bool :=
  is_class_char c || c.isAlphanum || c == '_' ||
    (0xC0 ≤ c.toNat && c.toNat ≤ 0x24F && c.toNat != 0xD7 && c.toNat != 0xF7)

/-- Python `str.lower`, restricted to ASCII plus the Romanian uppercase
letters this development exercises. -/
def to_lower_m (c : Char) : Char :=
  if c.toNat = 0xC2 then 'â'
  else if c.toNat = 0xCE then 'î'
  else if c.toNat = 0x102 then 'ă'
  else if c.toNat = 0x15E then 'ş'
  else if c.toNat = 0x162 then 'ţ'
  else if c.toNat = 0x218 then 'ș'
  else if c.toNat = 0x21A then 'ț'
  else c.toLower

/-- `re.findall(r'\b[a-zA-ZĀ-ſ]+\b', text)`.  Because the
character class is a subset of the word characters, a match must be a
whole maximal run of word characters: a boundary `\b` can only sit where
word-character-ness flips, so a run containing any word character outside
the class yields no match at all (no boundary is available inside the
run).  The scanner therefore walks the maximal word-character runs and
keeps exactly those consisting of class characters only.
The run closer: a finished (reversed) accumulator is kept exactly when it
is a nonempty all-class run. -/
def emit_run (acc : List Char) : List (List Char) :=
  if !(acc.reverse).isEmpty && (acc.reverse).all is_class_char then [acc.reverse]
  else []

/-- Scanner for the regex matches: `acc` accumulates (reversed) the
current run of word characters; a non-word character ends the run, which
is kept exactly when it consists of class characters only. -/
def lesk_runs_go : List Char → List Char → List (List Char)
  | [], acc => emit_run acc
  | c :: cs, acc =>
    if is_word_char c then lesk_runs_go cs (c :: acc)
    else emit_run acc ++ lesk_runs_go cs []

/-- All regex matches of the tokenizer on a text. -/
def lesk_runs (cs : List Char) : List (List Char) := lesk_runs_go cs []

/-- The filter of `_tokenize`: not a stop word and longer than 2. -/
def lesk_keep (w : List Char) : Bool :=
  !(stop_words_l.contains w) && decide (2 < w.length)

/-- `LeskSimilarity._tokenize`: lowercase, find the letter runs, filter;
the Python set of words is modelled as a deduplicated list. -/
def lesk_tokenize (text : List Char) : List (List Char) :=
  ((lesk_runs (text.map to_lower_m)).filter lesk_keep).dedup

/-- Set-union of token lists (first-occurrence order), modelling
`tokens.update(...)` on a Python set. -/
def union_tokens (acc : List (List Char)) (ws : List (List Char)) : List (List Char) :=
  ws.foldl (fun a w => if w ∈ a then a else a ++ [w]) acc

/-- `LeskSimilarity._get_extended_gloss`: tokens of the synset's own
definition, of each of its literals, and of the definitions of its first
five related synsets. -/
def get_extended_gloss (L : Loader) (x : Node) : List (List Char) :=
  let t1 := union_tokens [] (lesk_tokenize (get_definition L x).data)
  let t2 := (get_literals L x).foldl
    (fun a lit => union_tokens a (lesk_tokenize lit.data)) t1
  ((get_related_synsets L x).take 5).foldl
    (fun a rel => union_tokens a (lesk_tokenize (get_definition L rel).data)) t2

/-- `LeskSimilarity.calculate_synset_similarity`. -/
def lesk_similarity (L : Loader) (a b : Node) : ℚ :=
  if a = b then ((get_extended_gloss L a).length : ℚ)
  else
    let t1 := get_extended_gloss L a
    let t2 := get_extended_gloss L b
    if t1 = [] ∨ t2 = [] then 0
    else ((t1.filter (fun w => w ∈ t2)).length : ℚ)

/-- Direction tag of the HSO search. -/
inductive HsoDir
  | up
  | down
deriving DecidableEq

/-- One queue entry of `_find_path_with_directions`:
`(synset_id, path_length, direction_changes, last_direction, visited)`. -/
structure HsoState where
  node : Node
  path_len : Nat
  dir_changes : Nat
  last_dir : Option HsoDir
  visited : List Node

/-- One expansion of a popped HSO state: its direct hits on the target
(recorded results) and the new states enqueued, hypernyms first then
hyponyms, exactly in the order of the two `for` loops of the source. -/
def hso_step (L : Loader) (target : Node) (st : HsoState) :
    List (Nat × Nat) × List HsoState :=
  let upDelta := if st.last_dir = some HsoDir.down then 1 else 0
  let downDelta := if st.last_dir = some HsoDir.up then 1 else 0
  let ups := get_hypernyms L st.node
  let downs := get_hyponyms L st.node
  let upHits := (ups.filter (fun h => h == target)).map
    (fun _ => (st.path_len + 1, st.dir_changes + upDelta))
  let upStates := (ups.filter (fun h => h != target && !(st.visited.contains h))).map
    (fun h => HsoState.mk h (st.path_len + 1) (st.dir_changes + upDelta)
      (some HsoDir.up) (st.visited ++ [h]))
  let downHits := (downs.filter (fun h => h == target)).map
    (fun _ => (st.path_len + 1, st.dir_changes + downDelta))
  let downStates := (downs.filter (fun h => h != target && !(st.visited.contains h))).map
    (fun h => HsoState.mk h (st.path_len + 1) (st.dir_changes + downDelta)
      (some HsoDir.down) (st.visited ++ [h]))
  (upHits ++ downHits, upStates ++ downStates)

/-- The queue loop of `_find_path_with_directions`, returning the sequence
of recorded `(path_length, direction_changes)` results in the order the
source records them.  A popped state beyond `MAX_PATH_LENGTH = 8` or
`MAX_DIRECTION_CHANGES = 5` is skipped without expansion. -/
def hso_go (L : Loader) (target : Node) : Nat → List HsoState → List (Nat × Nat)
  | _, [] => []
  | 0, _ :: _ => []
  | fuel + 1, st :: rest =>
    if st.path_len > 8 then hso_go L target fuel rest
    else if st.dir_changes > 5 then hso_go L target fuel rest
    else
      let p := hso_step L target st
      p.1 ++ hso_go L target fuel (rest ++ p.2)

/-- Fuel bound for the HSO search (branch factor to the power of the
maximal expandable depth, with slack). -/
def hso_fuel (L : Loader) : Nat :=
  ((allHyperTargets L).length + (allHypoTargets L).length + 2) ^ 12

/-- All results recorded by the HSO search from `a` towards `b`. -/
def hso_candidates (L : Loader) (a b : Node) : List (Nat × Nat) :=
  hso_go L b (hso_fuel L) [HsoState.mk a 0 0 none [a]]

/-- `HsoSimilarity._score` as an integer:
`CONST_C - path_len - CONST_K * dir_changes`. -/
def hso_score_z (r : Nat × Nat) : Int := 16 - (r.1 : Int) - (r.2 : Int)

/-- The running `best_result` update of the source, folded over the
recorded results in order: replace only on a strictly greater score, so
the first of the tied maxima is retained. -/
def hso_select (l : List (Nat × Nat)) : Option (Nat × Nat) :=
  l.foldl
    (fun best r =>
      match best with
      | none => some r
      | some b => if hso_score_z r > hso_score_z b then some r else some b)
    none

/-- `HsoSimilarity._find_path_with_directions`. -/
def hso_find_path (L : Loader) (a b : Node) : Option (Nat × Nat) :=
  if a = b then some (0, 0) else hso_select (hso_candidates L a b)

/-- `HsoSimilarity.calculate_synset_similarity`. -/
def hso_calculate (L : Loader) (a b : Node) : ℚ :=
  if a = b then 16
  else
    match hso_find_path L a b with
    | none => 0
    | some r => max 0 (16 - (r.1 : ℚ) - (r.2 : ℚ))

/-- Python `word.lower()` under the modelled lowercase map. -/
def lower_string (w : String) : String := String.mk (w.data.map to_lower_m)

/-- `get_synsets_for_word`: case-insensitive word index lookup, keeping the
ids present in the synset cache. -/
def get_synsets_for_word (L : Loader) (w : String) : List Node :=
  ((L.word_tbl.lookup (lower_string w)).getD []).filter
    (fun sid => sid ∈ L.synset_ids)

/-- `BaseSimilarity.calculate_word_similarity`, generic over the concrete
measure `f` exactly as the base class is generic over
`calculate_synset_similarity`: all candidate pairs of the two words,
restricted to pairs with equal part of speech. -/
def calculate_word_similarity (f : Node → Node → ℚ) (L : Loader)
    (w1 w2 : String) : List (Node × Node × ℚ) :=
  let s1 := get_synsets_for_word L w1
  let s2 := get_synsets_for_word L w2
  if s1 = [] ∨ s2 = [] then []
  else
    s1.flatMap (fun a =>
      s2.filterMap (fun b =>
        if get_synset_pos L a = get_synset_pos L b then some (a, b, f a b)
        else none))

/-- `BaseSimilarity.get_max_similarity`: 0.0 on an empty result list, else
the maximal score. -/
def get_max_similarity (f : Node → Node → ℚ) (L : Loader) (w1 w2 : String) : ℚ :=
  match calculate_word_similarity f L w1 w2 with
  | [] => 0
  | r :: rs => rs.foldl (fun m x => max m x.2.2) r.2.2

/-- `BaseSimilarity.get_best_pair`: none on an empty result list, else the
first pair of maximal score (Python `max` keeps the first maximum). -/
def get_best_pair (f : Node → Node → ℚ) (L : Loader) (w1 w2 : String) :
    Option (Node × Node × ℚ) :=
  match calculate_word_similarity f L w1 w2 with
  | [] => none
  | r :: rs => some (rs.foldl (fun best x => if x.2.2 > best.2.2 then x else best) r)

/-- The part-of-speech admission test of the specific-sense branch of the
service endpoint (`main.calculate_similarity`):
`s1_pos == s2_pos or name in ['lesk', 'hso']`.  This specific-sense branch
is the only place the LESK/HSO exception exists. -/
def service_pos_allows (name : String) (p1 p2 : Char) : Bool :=
  p1 == p2 || name == "lesk" || name == "hso"

/-- A path of hypernym steps of a given length. -/
inductive HyperPath (L : Loader) : Node → Node → Nat → Prop
  | refl (x : Node) : HyperPath L x x 0
  | step (x y z : Node) (n : Nat) :
      y ∈ get_hypernyms L x → HyperPath L y z n → HyperPath L x z (n + 1)

/-- A root in the sense of `get_depth`: a node with no hypernyms. -/
def is_root (L : Loader) (x : Node) : Prop := get_hypernyms L x = []

instance (L : Loader) (x : Node) : Decidable (is_root L x) := by
  unfold is_root
  exact inferInstance

/-- The shortest number of hypernym hops from `s` to some root is `n`. -/
def RootDist (L : Loader) (s : Node) (n : Nat) : Prop :=
  (∃ r, HyperPath L s r n ∧ is_root L r) ∧
    ∀ k < n, ¬ ∃ r, HyperPath L s r k ∧ is_root L r

/-- The shortest hypernym distance from `s` to `y` is `n`. -/
def SDist (L : Loader) (s y : Node) (n : Nat) : Prop :=
  HyperPath L s y n ∧ ∀ m, HyperPath L s y m → n ≤ m

/-- Modelled from the spec of the tokenizer claim: letters are ASCII
letters together with the extended Latin characters used by Romanian
(the diacritics ă, â, î, ș, ț and the cedilla forms ş, ţ); tokens are the
maximal runs of such letters. -/
def spec_letter (c : Char) : Bool :=
  is_class_char c || c ∈ ['â', 'î', 'ș', 'ț', 'ă', 'ş', 'ţ']

/-- Modelled from the spec: tokenization as the claim states it — maximal
runs of `spec_letter` characters. -/
def spec_runs_go : List Char → List Char → List (List Char)
  | [], acc => if acc.isEmpty then [] else [acc.reverse]
  | c :: cs, acc =>
    if spec_letter c then spec_runs_go cs (c :: acc)
    else (if acc.isEmpty then [] else [acc.reverse]) ++ spec_runs_go cs []

/-- Modelled from the spec: all maximal letter runs of a text. -/
def spec_runs (cs : List Char) : List (List Char) := spec_runs_go cs []

/-- Modelled from the spec: the tokenizer the claim describes — lowercase,
maximal runs of letters including the Romanian diacritics, stop-word and
length filtering. -/
def spec_lesk_tokenize (text : List Char) : List (List Char) :=
  ((spec_runs (text.map to_lower_m)).filter lesk_keep).dedup

/-- Concrete graph for the shortest-path asymmetry: an undirected graph
(each edge listed from both endpoints) with a length-3 path a-u1-u2-b and
a length-4 path a-y-w-v-b, plus a pendant x that desynchronises the two
alternating frontiers. -/
def gSpl : Loader :=
  Loader.mk []
    [("a", ["x", "y", "u1"]), ("x", ["a"]), ("y", ["a", "w"]),
     ("u1", ["a", "u2"]), ("u2", ["u1", "b"]), ("v", ["w", "b"]),
     ("w", ["y", "v"]), ("b", ["v", "u2"])]
    [] [] [] [] []

/-- Concrete graph for WUP exceeding 1: s1 and s2 each have hypernyms
r (a root, giving them depth 2) and x, and x sits at depth 4 through the
chain x → y → z → r2, so the deepest common ancestor x is deeper than
either synset. -/
def gWup : Loader :=
  Loader.mk []
    [("s1", ["r", "x"]), ("s2", ["r", "x"]), ("x", ["y"]), ("y", ["z"]),
     ("z", ["r2"])]
    [] [] [] [] []

/-- Concrete graph for the HSO bound overshoot: a pure hypernym chain of
nine edges from a to b. -/
def gChain9 : Loader :=
  Loader.mk []
    [("a", ["n1"]), ("n1", ["n2"]), ("n2", ["n3"]), ("n3", ["n4"]),
     ("n4", ["n5"]), ("n5", ["n6"]), ("n6", ["n7"]), ("n7", ["n8"]),
     ("n8", ["b"])]
    [] [] [] [] []

/-- Concrete graph for the best-pair path: two words resolving to one
synset each, of different parts of speech. -/
def gPos : Loader :=
  Loader.mk ["sA", "sB"] [] []
    [("sA", 'n'), ("sB", 'v')] [] []
    [("w1", ["sA"]), ("w2", ["sB"])]

/-- Concrete one-edge graph: a single hypernym edge a → b. -/
def gEdge : Loader :=
  Loader.mk [] [("a", ["b"])] [] [] [] [] []

/-- Concrete graph for the depth witness: a chain s → t with t a root,
plus a self-loop node u from which no root is reachable. -/
def gDepthW : Loader :=
  Loader.mk [] [("s", ["t"]), ("u", ["u"])] [] [] [] [] []

/-- Concrete graph for the degenerate-denominator witnesses: a and b share
the root r and each reaches, through phantom hyponym edges, all four
cache-counted nodes, so their information content under the witness
logarithm is 0; separately a 20-edge hypernym chain c0 → … → c20 of
part of speech a (max depth 10) makes the LCH numerator reach its
denominator. -/
def gDegen : Loader :=
  Loader.mk ["r", "a", "b"]
    [("a", ["r"]), ("b", ["r"]),
     ("c0", ["c1"]), ("c1", ["c2"]), ("c2", ["c3"]), ("c3", ["c4"]),
     ("c4", ["c5"]), ("c5", ["c6"]), ("c6", ["c7"]), ("c7", ["c8"]),
     ("c8", ["c9"]), ("c9", ["c10"]), ("c10", ["c11"]), ("c11", ["c12"]),
     ("c12", ["c13"]), ("c13", ["c14"]), ("c14", ["c15"]), ("c15", ["c16"]),
     ("c16", ["c17"]), ("c17", ["c18"]), ("c18", ["c19"]), ("c19", ["c20"])]
    [("r", ["a", "b"]), ("a", ["p1", "p2", "p3"]), ("b", ["p1", "p2", "p3"])]
    [("c0", 'a')] [] [] []

/-- Witness logarithm: q ↦ q − 1 (a log-like map with value 0 at 1). -/
def logW : ℚ → ℚ := fun q => q - 1

/-- Every character of the word is in the regex character class. -/
def all_class (w : List Char) : Prop := ∀ c ∈ w, is_class_char c = true

/-- Every character of the word is a word character. -/
def all_word (w : List Char) : Prop := ∀ c ∈ w, is_word_char c = true

/-- The list does not start with a word character (a right-hand regex
boundary, or the end of the text). -/
def head_nonword (l : List Char) : Prop :=
  ∀ c, l.head? = some c → is_word_char c = false

/-- The list does not end with a word character (a left-hand regex
boundary, or the start of the text). -/
def last_nonword (l : List Char) : Prop :=
  ∀ c, l.getLast? = some c → is_word_char c = false


/-- Helper: membership in the candidate-pair list of
`calculate_word_similarity` is exactly membership of both synsets in the
two words' candidate lists with equal part of speech and the measure's
score. -/
theorem mem_calculate_word_similarity (f : Node → Node → ℚ) (L : Loader)
    (w1 w2 : String) (a b : Node) (q : ℚ) :
    (a, b, q) ∈ calculate_word_similarity f L w1 w2 ↔
      a ∈ get_synsets_for_word L w1 ∧ b ∈ get_synsets_for_word L w2 ∧
        get_synset_pos L a = get_synset_pos L b ∧ q = f a b := by
  unfold calculate_word_similarity
  by_cases h1 : get_synsets_for_word L w1 = []
  · simp [h1]
  · by_cases h2 : get_synsets_for_word L w2 = []
    · simp [h2]
    · rw [if_neg (by simp [h1, h2])]
      simp only [List.mem_flatMap, List.mem_filterMap,
        Option.ite_none_right_eq_some, Option.some.injEq, Prod.mk.injEq]
      constructor
      · rintro ⟨x, hx, y, hy, hp, rfl, rfl, rfl⟩
        exact ⟨hx, hy, hp, rfl⟩
      · rintro ⟨ha, hb, hp, rfl⟩
        exact ⟨a, ha, b, hb, hp, rfl, rfl, rfl⟩

/-- Helper: when no candidate pair of the two words has matching part of
speech, the candidate-pair list is empty. -/
theorem calculate_word_similarity_eq_nil (f : Node → Node → ℚ) (L : Loader)
    (w1 w2 : String)
    (h : ∀ a ∈ get_synsets_for_word L w1, ∀ b ∈ get_synsets_for_word L w2,
      get_synset_pos L a ≠ get_synset_pos L b) :
    calculate_word_similarity f L w1 w2 = [] := by
  rw [List.eq_nil_iff_forall_not_mem]
  rintro ⟨a, b, q⟩ hmem
  rw [mem_calculate_word_similarity] at hmem
  exact h a hmem.1 b hmem.2.1 hmem.2.2.1

/-- Helper: when either word has no candidate synsets, the candidate-pair
list is empty. -/
theorem calculate_word_similarity_eq_nil_of_empty (f : Node → Node → ℚ)
    (L : Loader) (w1 w2 : String)
    (h : get_synsets_for_word L w1 = [] ∨ get_synsets_for_word L w2 = []) :
    calculate_word_similarity f L w1 w2 = [] := by
  unfold calculate_word_similarity
  rcases h with h | h <;> simp [h]

/-- C1 (counterexample): on the best-pair-across-all-senses path, a
candidate pair with differing parts of speech is not scored even for LESK
and HSO: both words resolve to one synset each (noun and verb), yet the
candidate-pair list is empty and the best pair is none for both
measures, contradicting the claimed POS-agnosticism of that path. -/
theorem c1_counterexample :
    get_synsets_for_word gPos "w1" = ["sA"] ∧
      get_synsets_for_word gPos "w2" = ["sB"] ∧
      get_synset_pos gPos "sA" ≠ get_synset_pos gPos "sB" ∧
      calculate_word_similarity (lesk_similarity gPos) gPos "w1" "w2" = [] ∧
      get_best_pair (lesk_similarity gPos) gPos "w1" "w2" = none ∧
      get_best_pair (hso_calculate gPos) gPos "w1" "w2" = none ∧
      get_max_similarity (hso_calculate gPos) gPos "w1" "w2" = 0 := by
  refine ⟨by decide, by decide, by decide, by decide, ?_, ?_, ?_⟩
  · rw [get_best_pair, calculate_word_similarity_eq_nil]
    decide
  · rw [get_best_pair, calculate_word_similarity_eq_nil]
    decide
  · rw [get_max_similarity, calculate_word_similarity_eq_nil]
    decide

/-- C1 (amended): for every measure — LESK and HSO included — the
best-pair / max-similarity helper scores exactly the candidate pairs with
equal part of speech; a pair appears in its enumeration precisely when
both synsets come from the words' candidate lists, their parts of speech
agree, and the score is the measure's score.  (The LESK/HSO exception of
the service layer lives only in its specific-sense branch,
`service_pos_allows`.) -/
theorem c1_best_pair_pos_filter (f : Node → Node → ℚ) (L : Loader)
    (w1 w2 : String) (a b : Node) (q : ℚ) :
    ((a, b, q) ∈ calculate_word_similarity f L w1 w2 ↔
      a ∈ get_synsets_for_word L w1 ∧ b ∈ get_synsets_for_word L w2 ∧
        get_synset_pos L a = get_synset_pos L b ∧ q = f a b) ∧
      service_pos_allows "lesk" 'n' 'v' = true ∧
      service_pos_allows "hso" 'n' 'v' = true := by
  exact ⟨mem_calculate_word_similarity f L w1 w2 a b q, by decide, by decide⟩

/-- C6 (counterexample): the bidirectional search is not symmetric — on
the concrete undirected graph `gSpl` it returns 4 in one direction and 3
in the other (the one-node-per-side alternation meets the frontiers on a
suboptimal middle node in the first direction only). -/
theorem c6_counterexample :
    find_shortest_path_length gSpl "a" "b" = 4 ∧
      find_shortest_path_length gSpl "b" "a" = 3 ∧
      find_shortest_path_length gSpl "a" "b" ≠
        find_shortest_path_length gSpl "b" "a" := by
  refine ⟨by decide, by decide, by decide⟩

/-- C6 (amended): `shortestPathLength(s, s) = 0` for every synset;
symmetry of the two directions does not hold in general. -/
theorem c6_self_path_zero (L : Loader) (s : Node) :
    find_shortest_path_length L s s = 0 := by
  simp [find_shortest_path_length]

/-- C8: the LESK score of a same-synset pair is the size of that synset's
own extended gloss token set (the dedicated equal-id branch; no
intersection is computed). -/
theorem c8_lesk_self (L : Loader) (s : Node) :
    lesk_similarity L s s = ((get_extended_gloss L s).length : ℚ) := by
  simp [lesk_similarity]

/-- C10: with both words resolving to candidates but no candidate pair
sharing a part of speech, max-similarity is 0.0 and best-pair is none —
exactly the outcomes produced when a word is unknown, so the two
situations are indistinguishable through these operations. -/
theorem c10_no_pos_indistinguishable (f : Node → Node → ℚ) (L : Loader)
    (w1 w2 w3 w4 : String) :
    (get_synsets_for_word L w1 ≠ [] → get_synsets_for_word L w2 ≠ [] →
      (∀ a ∈ get_synsets_for_word L w1, ∀ b ∈ get_synsets_for_word L w2,
        get_synset_pos L a ≠ get_synset_pos L b) →
      get_max_similarity f L w1 w2 = 0 ∧ get_best_pair f L w1 w2 = none) ∧
      (get_synsets_for_word L w3 = [] ∨ get_synsets_for_word L w4 = [] →
        get_max_similarity f L w3 w4 = 0 ∧ get_best_pair f L w3 w4 = none) := by
  constructor
  · intro _ _ h
    have hnil := calculate_word_similarity_eq_nil f L w1 w2 h
    rw [get_max_similarity, get_best_pair, hnil]
    exact ⟨rfl, rfl⟩
  · intro h
    have hnil := calculate_word_similarity_eq_nil_of_empty f L w3 w4 h
    rw [get_max_similarity, get_best_pair, hnil]
    exact ⟨rfl, rfl⟩

/-- C10 (witness): concrete instance — two known words whose only
candidates are a noun and a verb, and an unknown word. -/
theorem c10_witness :
    (get_synsets_for_word gPos "w1" ≠ [] ∧ get_synsets_for_word gPos "w2" ≠ [] ∧
      (∀ a ∈ get_synsets_for_word gPos "w1", ∀ b ∈ get_synsets_for_word gPos "w2",
        get_synset_pos gPos a ≠ get_synset_pos gPos b) ∧
      (get_synsets_for_word gPos "zz" = [] ∨ get_synsets_for_word gPos "w2" = [])) ∧
      (get_max_similarity (fun _ _ => 0) gPos "w1" "w2" = 0 ∧
        get_best_pair (fun _ _ => 0) gPos "w1" "w2" = none) ∧
      (get_max_similarity (fun _ _ => 0) gPos "zz" "w2" = 0 ∧
        get_best_pair (fun _ _ => 0) gPos "zz" "w2" = none) := by
  refine ⟨⟨by decide, by decide, by decide, by decide⟩, ?_, ?_⟩
  · exact (c10_no_pos_indistinguishable (fun _ _ => 0) gPos "w1" "w2" "w1" "w2").1
      (by decide) (by decide) (by decide)
  · exact (c10_no_pos_indistinguishable (fun _ _ => 0) gPos "w1" "w2" "zz" "w2").2
      (by decide)

/-- C9: degenerate denominators yield 0.0 — LIN returns 0.0 when
`IC(A) + IC(B) = 0`, and LCH returns 0.0 when
`pathLen + 1 ≥ 2·maxDepth + 1`; neither fails. -/
theorem c9_degenerate_denominators (L : Loader) (logf : ℚ → ℚ)
    (a b a1 b1 : Node) :
    (a ≠ b → information_content L logf a + information_content L logf b = 0 →
      lin_similarity L logf a b = 0) ∧
      (a1 ≠ b1 →
        2 * (get_max_depth (get_synset_pos L a1) : ℚ) + 1 ≤
          (find_shortest_path_length L a1 b1 : ℚ) + 1 →
        lch_similarity L logf a1 b1 = 0) := by
  constructor
  · intro hne hdeg
    rw [lin_similarity, if_neg hne]
    cases find_lcs L a b with
    | none => rfl
    | some lcs => simp [hdeg]
  · intro hne hdeg
    rw [lch_similarity, if_neg hne]
    by_cases hneg : find_shortest_path_length L a1 b1 < 0
    · simp [hneg]
    · simp only [if_neg hneg]
      rw [if_pos (by linarith)]

/-- C9 (witness): on `gDegen` with the witness logarithm, a and b have
information content 0 (their descendant ratio is exactly 1 thanks to the
phantom hyponyms), and c0/c20 sit 20 edges apart with max depth 10. -/
theorem c9_witness :
    (("a" : Node) ≠ "b" ∧
      information_content gDegen logW "a" + information_content gDegen logW "b" = 0 ∧
      lin_similarity gDegen logW "a" "b" = 0) ∧
      (("c0" : Node) ≠ "c20" ∧
        2 * (get_max_depth (get_synset_pos gDegen "c0") : ℚ) + 1 ≤
          (find_shortest_path_length gDegen "c0" "c20" : ℚ) + 1 ∧
        lch_similarity gDegen logW "c0" "c20" = 0) := by
  have hICa : information_content gDegen logW "a" = 0 := by
    have h1 : count_descendants gDegen "a" = 4 := by decide
    have h2 : (gDegen.synset_ids).length = 3 := by decide
    simp only [information_content, logW, h1, h2]
    norm_num
  have hICb : information_content gDegen logW "b" = 0 := by
    have h1 : count_descendants gDegen "b" = 4 := by decide
    have h2 : (gDegen.synset_ids).length = 3 := by decide
    simp only [information_content, logW, h1, h2]
    norm_num
  have hIC : information_content gDegen logW "a" + information_content gDegen logW "b" = 0 := by
    rw [hICa, hICb]
    norm_num
  have hspl : find_shortest_path_length gDegen "c0" "c20" = 20 := by decide
  have hpos : get_synset_pos gDegen "c0" = 'a' := by decide
  have hmd : get_max_depth 'a' = 10 := by decide
  have hle : 2 * (get_max_depth (get_synset_pos gDegen "c0") : ℚ) + 1 ≤
      (find_shortest_path_length gDegen "c0" "c20" : ℚ) + 1 := by
    rw [hspl, hpos, hmd]
    norm_num
  refine ⟨⟨by decide, hIC, ?_⟩, ⟨by decide, hle, ?_⟩⟩
  · exact (c9_degenerate_denominators gDegen logW "a" "b" "c0" "c20").1 (by decide) hIC
  · exact (c9_degenerate_denominators gDegen logW "a" "b" "c0" "c20").2 (by decide) hle

/-- Helper: every result recorded by the HSO search comes from an expanded
state that passed the bound checks, so its path length is at most 9 and
its direction-change count at most 6. -/
theorem hso_go_bounds (L : Loader) (target : Node) :
    ∀ (fuel : Nat) (queue : List HsoState) (r : Nat × Nat),
      r ∈ hso_go L target fuel queue → r.1 ≤ 9 ∧ r.2 ≤ 6 := by
  intro fuel
  induction fuel with
  | zero =>
    intro queue r hr
    cases queue with
    | nil => simp [hso_go] at hr
    | cons st rest => simp [hso_go] at hr
  | succ f ih =>
    intro queue r hr
    cases queue with
    | nil => simp [hso_go] at hr
    | cons st rest =>
      rw [hso_go] at hr
      by_cases h8 : st.path_len > 8
      · rw [if_pos h8] at hr
        exact ih rest r hr
      · rw [if_neg h8] at hr
        by_cases h5 : st.dir_changes > 5
        · rw [if_pos h5] at hr
          exact ih rest r hr
        · rw [if_neg h5] at hr
          rcases List.mem_append.1 hr with hhit | hrec
          · simp only [hso_step, List.mem_append, List.mem_map,
              List.mem_filter] at hhit
            rcases hhit with ⟨x, _, hx⟩ | ⟨x, _, hx⟩ <;>
              · rw [← hx]
                constructor
                · simp only []
                  omega
                · simp only []
                  split <;> omega
          · exact ih _ r hrec

/-- Helper: the running best-result fold returns a recorded result of
maximal score (the first such, ties kept at the earlier result). -/
theorem hso_select_spec :
    ∀ (l : List (Nat × Nat)) (acc : Option (Nat × Nat)) (r : Nat × Nat),
      l.foldl
        (fun best r =>
          match best with
          | none => some r
          | some b => if hso_score_z r > hso_score_z b then some r else some b)
        acc = some r →
      (acc = some r ∨ r ∈ l) ∧
        (∀ b, acc = some b → hso_score_z b ≤ hso_score_z r) ∧
        (∀ x ∈ l, hso_score_z x ≤ hso_score_z r) := by
  intro l
  induction l with
  | nil =>
    intro acc r h
    simp only [List.foldl_nil] at h
    refine ⟨Or.inl h, fun b hb => ?_, fun x hx => absurd hx (List.not_mem_nil x)⟩
    rw [h] at hb
    cases hb
    exact le_refl _
  | cons y ys ih =>
    intro acc r h
    rw [List.foldl_cons] at h
    obtain ⟨hmem, hacc, hall⟩ := ih _ r h
    have hy_le : hso_score_z y ≤ hso_score_z r := by
      cases acc with
      | none => exact hacc y (by simp)
      | some b =>
        by_cases hgt : hso_score_z y > hso_score_z b
        · exact hacc y (by simp [hgt])
        · exact le_trans (not_lt.1 hgt) (hacc b (by simp [hgt]))
    refine ⟨?_, ?_, ?_⟩
    · rcases hmem with hs | hs
      · cases acc with
        | none =>
          simp only [Option.some.injEq] at hs
          exact Or.inr (by rw [← hs]; exact List.mem_cons_self y ys)
        | some b =>
          by_cases hgt : hso_score_z y > hso_score_z b
          · simp only [hgt, if_pos, Option.some.injEq] at hs
            exact Or.inr (by rw [← hs]; exact List.mem_cons_self y ys)
          · simp only [if_neg hgt, Option.some.injEq] at hs
            exact Or.inl (by rw [hs])
      · exact Or.inr (List.mem_cons_of_mem y hs)
    · intro b hb
      cases hb
      by_cases hgt : hso_score_z y > hso_score_z b
      · exact le_trans (le_of_lt hgt) (hacc y (by simp [hgt]))
      · exact hacc b (by simp [hgt])
    · intro x hx
      rcases List.mem_cons.1 hx with rfl | hxs
      · exact hy_le
      · exact hall x hxs

/-- C2 (counterexample): on a pure hypernym chain of nine edges the
constrained search returns a result of path length 9, exceeding
`maxPathLength = 8` — the final edge onto the target is recorded before
the bound check — so the claimed bound `pathLength ≤ maxPathLength` is
violated by a retained result. -/
theorem c2_counterexample :
    hso_find_path gChain9 "a" "b" = some (9, 0) ∧ ¬((9 : Nat) ≤ 8) := by
  exact ⟨by decide, by decide⟩

/-- C2 (amended): every retained result of the constrained search
satisfies `pathLength ≤ maxPathLength + 1 = 9` and
`directionChanges ≤ maxDirectionChanges + 1 = 6` (the bounds are enforced
on expanded states, while the final edge onto `b` is recorded before any
check); among every candidate recorded by the search the retained result
has maximal score `16 − pathLength − directionChanges`. -/
theorem c2_search_bounds_and_max (L : Loader) (a b : Node) (r : Nat × Nat)
    (hne : a ≠ b) (h : hso_find_path L a b = some r) :
    r.1 ≤ 9 ∧ r.2 ≤ 6 ∧ r ∈ hso_candidates L a b ∧
      ∀ x ∈ hso_candidates L a b, hso_score_z x ≤ hso_score_z r := by
  rw [hso_find_path, if_neg hne] at h
  obtain ⟨hmem, _, hall⟩ := hso_select_spec (hso_candidates L a b) none r h
  rcases hmem with hbad | hmem
  · cases hbad
  · obtain ⟨h1, h2⟩ := hso_go_bounds L b (hso_fuel L) _ r hmem
    exact ⟨h1, h2, hmem, hall⟩

/-- C2 (witness): a single hypernym edge — the search returns (1, 0),
which is within bounds, recorded, and of maximal score. -/
theorem c2_witness :
    (("a" : Node) ≠ "b" ∧ hso_find_path gEdge "a" "b" = some (1, 0)) ∧
      ((1 : Nat) ≤ 9 ∧ (0 : Nat) ≤ 6 ∧ (1, 0) ∈ hso_candidates gEdge "a" "b" ∧
        ∀ x ∈ hso_candidates gEdge "a" "b",
          hso_score_z x ≤ hso_score_z (1, 0)) := by
  exact ⟨⟨by decide, by decide⟩,
    c2_search_bounds_and_max gEdge "a" "b" (1, 0) (by decide) (by decide)⟩

/-- C3 (counterexample): WUP exceeds 1 — on `gWup` the deepest common
ancestor x of s1 and s2 has depth 4 while both synsets have depth 2, so
`WUP(s1, s2) = 2·4 / (2+2) = 2 > 1`, refuting the claimed range [0, 1]. -/
theorem c3_counterexample : 1 < wup_similarity gWup "s1" "s2" := by
  have h0 : ("s1" : String) ≠ "s2" := by decide
  have h1 : find_lcs gWup "s1" "s2" = some "x" := by decide
  have h2 : get_depth gWup "x" = 4 := by decide
  have h3 : get_depth gWup "s1" = 2 := by decide
  have h4 : get_depth gWup "s2" = 2 := by decide
  rw [wup_similarity, if_neg h0, h1]
  simp only [h2, h3, h4]
  norm_num

/-- C3 (amended): the PATH score always lies in [0, 1] and the WUP score
is nonnegative; PATH, WUP and LIN all return exactly 1.0 on same-synset
pairs.  (The upper bound 1 fails for WUP — and hence is not claimed —
when a common ancestor is deeper than the synsets themselves.) -/
theorem c3_ranges (L : Loader) (logf : ℚ → ℚ) (a b s : Node) :
    0 ≤ path_similarity L a b ∧ path_similarity L a b ≤ 1 ∧
      0 ≤ wup_similarity L a b ∧
      path_similarity L s s = 1 ∧ wup_similarity L s s = 1 ∧
      lin_similarity L logf s s = 1 := by
  refine ⟨?_, ?_, ?_, by simp [path_similarity], by simp [wup_similarity],
    by simp [lin_similarity]⟩
  · rw [path_similarity]
    by_cases hab : a = b
    · rw [if_pos hab]
      norm_num
    · rw [if_neg hab]
      by_cases hle : find_shortest_path_length L a b ≤ 0
      · rw [if_pos hle]
      · rw [if_neg hle]
        have h1 : (1 : ℚ) ≤ (find_shortest_path_length L a b : ℚ) + 1 := by
          have : (0 : ℚ) ≤ (find_shortest_path_length L a b : ℚ) := by
            exact_mod_cast le_of_lt (not_le.1 hle)
          linarith
        positivity
  · rw [path_similarity]
    by_cases hab : a = b
    · rw [if_pos hab]
    · rw [if_neg hab]
      by_cases hle : find_shortest_path_length L a b ≤ 0
      · rw [if_pos hle]
        norm_num
      · rw [if_neg hle]
        have h1 : (1 : ℚ) ≤ (find_shortest_path_length L a b : ℚ) + 1 := by
          have : (0 : ℚ) ≤ (find_shortest_path_length L a b : ℚ) := by
            exact_mod_cast le_of_lt (not_le.1 hle)
          linarith
        rw [div_le_one (by linarith)]
        linarith
  · rw [wup_similarity]
    by_cases hab : a = b
    · rw [if_pos hab]
      norm_num
    · rw [if_neg hab]
      cases find_lcs L a b with
      | none => exact le_refl 0
      | some lcs =>
        simp only []
        by_cases hd : ((get_depth L a : ℚ) + (get_depth L b : ℚ)) = 0
        · rw [if_pos hd]
        · rw [if_neg hd]
          have hnum : (0 : ℚ) ≤ 2 * (get_depth L lcs : ℚ) := by positivity
          have hden : (0 : ℚ) ≤ (get_depth L a : ℚ) + (get_depth L b : ℚ) := by
            positivity
          exact div_nonneg hnum hden

/-- Helper: the selection scan of `find_lcs`, run from an already-selected
element, returns an element of maximal depth among the seed and the list. -/
theorem lcs_scan_go (L : Loader) :
    ∀ (l : List Node) (m0 : Node),
      ∃ m, l.foldl
          (fun (p : Option Node × Int) x =>
            let d : Int := get_depth L x
            if d > p.2 then (some x, d) else p)
          (some m0, (get_depth L m0 : Int)) = (some m, (get_depth L m : Int)) ∧
        (m = m0 ∨ m ∈ l) ∧ get_depth L m0 ≤ get_depth L m ∧
        ∀ x ∈ l, get_depth L x ≤ get_depth L m := by
  intro l
  induction l with
  | nil =>
    intro m0
    exact ⟨m0, rfl, Or.inl rfl, le_refl _,
      fun x hx => absurd hx (List.not_mem_nil x)⟩
  | cons x xs ih =>
    intro m0
    rw [List.foldl_cons]
    by_cases h : ((get_depth L x : Int) > (get_depth L m0 : Int))
    · obtain ⟨m, heq, hmem, hle, hall⟩ := ih x
      refine ⟨m, by simpa [h] using heq, ?_, ?_, ?_⟩
      · rcases hmem with heq2 | hm
        · exact Or.inr (by rw [heq2]; exact List.mem_cons_self x xs)
        · exact Or.inr (List.mem_cons_of_mem x hm)
      · have hx0 : get_depth L m0 ≤ get_depth L x := le_of_lt (by exact_mod_cast h)
        exact le_trans hx0 hle
      · intro y hy
        rcases List.mem_cons.1 hy with heq2 | hys
        · rw [heq2]
          exact hle
        · exact hall y hys
    · obtain ⟨m, heq, hmem, hle, hall⟩ := ih m0
      refine ⟨m, by simpa [h] using heq, ?_, hle, ?_⟩
      · rcases hmem with heq2 | hm
        · exact Or.inl heq2
        · exact Or.inr (List.mem_cons_of_mem x hm)
      · intro y hy
        rcases List.mem_cons.1 hy with heq2 | hys
        · rw [heq2]
          exact le_trans (by exact_mod_cast not_lt.1 h) hle
        · exact hall y hys

/-- Helper: on a nonempty list the selection scan of `find_lcs` returns a
member of maximal depth. -/
theorem lcs_scan_spec (L : Loader) (l : List Node) (hne : l ≠ []) :
    ∃ m, (lcs_scan L l).1 = some m ∧ m ∈ l ∧
      ∀ x ∈ l, get_depth L x ≤ get_depth L m := by
  cases l with
  | nil => exact absurd rfl hne
  | cons y ys =>
    rw [lcs_scan, List.foldl_cons]
    have hfirst : ((get_depth L y : Int) > (-1 : Int)) := by
      have : (0 : Int) ≤ (get_depth L y : Int) := Int.natCast_nonneg _
      omega
    obtain ⟨m, heq, hmem, hle, hall⟩ := lcs_scan_go L ys y
    refine ⟨m, by simpa [hfirst] using congrArg Prod.fst heq, ?_, ?_⟩
    · rcases hmem with heq2 | hm
      · rw [heq2]
        exact List.mem_cons_self y ys
      · exact List.mem_cons_of_mem y hm
    · intro x hx
      rcases List.mem_cons.1 hx with heq2 | hxs
      · rw [heq2]
        exact hle
      · exact hall x hxs

/-- Helper: membership in the common-ancestor set is membership in both
self sets. -/
theorem mem_lcs_common (L : Loader) (a b x : Node) :
    x ∈ lcs_common L a b ↔ x ∈ lcs_self_set L a ∧ x ∈ lcs_self_set L b := by
  simp [lcs_common, List.mem_filter]

/-- Helper: the two directions produce common-ancestor lists with the same
members. -/
theorem mem_lcs_common_symm (L : Loader) (a b x : Node) :
    x ∈ lcs_common L a b ↔ x ∈ lcs_common L b a := by
  rw [mem_lcs_common, mem_lcs_common, and_comm]

/-- Helper: the common list of one direction is empty exactly when the
other direction's is. -/
theorem lcs_common_nil_symm (L : Loader) (a b : Node) :
    lcs_common L a b = [] ↔ lcs_common L b a = [] := by
  rw [List.eq_nil_iff_forall_not_mem, List.eq_nil_iff_forall_not_mem]
  constructor
  · intro h x hx
    exact h x ((mem_lcs_common_symm L a b x).2 hx)
  · intro h x hx
    exact h x ((mem_lcs_common_symm L a b x).1 hx)

/-- C4 (counterexample): PATH is not symmetric — on `gSpl` the two
directions give 1/5 and 1/4 because the underlying shortest-path search
is direction-sensitive. -/
theorem c4_counterexample :
    path_similarity gSpl "a" "b" ≠ path_similarity gSpl "b" "a" := by
  have hab : path_similarity gSpl "a" "b" = 1 / 5 := by
    have h0 : ("a" : String) ≠ "b" := by decide
    have h1 : find_shortest_path_length gSpl "a" "b" = 4 := by decide
    rw [path_similarity, if_neg h0, h1]
    norm_num
  have hba : path_similarity gSpl "b" "a" = 1 / 4 := by
    have h0 : ("b" : String) ≠ "a" := by decide
    have h1 : find_shortest_path_length gSpl "b" "a" = 3 := by decide
    rw [path_similarity, if_neg h0, h1]
    norm_num
  rw [hab, hba]
  norm_num

/-- C4 (amended): WUP is symmetric unconditionally (a depth-maximal common
ancestor has the same depth in both directions); LIN, RES and JCN are
symmetric whenever the LCS helper returns the same ancestor in both
directions (in particular whenever the deepest common ancestor is unique
— under depth ties the selection follows iteration order and the returned
ancestors may differ); PATH is not symmetric in general. -/
theorem c4_symmetry (L : Loader) (logf : ℚ → ℚ) (a b : Node) :
    wup_similarity L a b = wup_similarity L b a ∧
      (find_lcs L a b = find_lcs L b a →
        lin_similarity L logf a b = lin_similarity L logf b a ∧
          res_similarity L logf a b = res_similarity L logf b a ∧
          jcn_similarity L logf a b = jcn_similarity L logf b a) := by
  constructor
  · by_cases hab : a = b
    · rw [hab]
    · have hba : b ≠ a := Ne.symm hab
      by_cases hc : lcs_common L a b = []
      · have hc2 : lcs_common L b a = [] := (lcs_common_nil_symm L a b).1 hc
        have hf1 : find_lcs L a b = none := by
          rw [find_lcs, if_neg hab, if_pos hc]
        have hf2 : find_lcs L b a = none := by
          rw [find_lcs, if_neg hba, if_pos hc2]
        rw [wup_similarity, if_neg hab, wup_similarity, if_neg hba, hf1, hf2]
      · have hc2 : lcs_common L b a ≠ [] := by
          intro h
          exact hc ((lcs_common_nil_symm L a b).2 h)
        obtain ⟨m1, he1, hm1, hall1⟩ := lcs_scan_spec L _ hc
        obtain ⟨m2, he2, hm2, hall2⟩ := lcs_scan_spec L _ hc2
        have hd : get_depth L m1 = get_depth L m2 :=
          le_antisymm (hall2 m1 ((mem_lcs_common_symm L a b m1).1 hm1))
            (hall1 m2 ((mem_lcs_common_symm L b a m2).1 hm2))
        have hf1 : find_lcs L a b = some m1 := by
          rw [find_lcs, if_neg hab, if_neg hc]
          exact he1
        have hf2 : find_lcs L b a = some m2 := by
          rw [find_lcs, if_neg hba, if_neg hc2]
          exact he2
        rw [wup_similarity, if_neg hab, wup_similarity, if_neg hba, hf1, hf2]
        simp only []
        have hcomm : (get_depth L a : ℚ) + (get_depth L b : ℚ) =
            (get_depth L b : ℚ) + (get_depth L a : ℚ) := add_comm _ _
        rw [hcomm, hd]
  · intro hlcs
    refine ⟨?_, ?_, ?_⟩
    · by_cases hab : a = b
      · rw [hab]
      · rw [lin_similarity, if_neg hab, lin_similarity, if_neg (Ne.symm hab),
          ← hlcs]
        cases find_lcs L a b with
        | none => rfl
        | some lcs =>
          simp only []
          rw [add_comm (information_content L logf a)
            (information_content L logf b)]
    · by_cases hab : a = b
      · rw [hab]
      · rw [res_similarity, if_neg hab, res_similarity, if_neg (Ne.symm hab),
          ← hlcs]
    · by_cases hab : a = b
      · rw [hab]
      · rw [jcn_similarity, if_neg hab, jcn_similarity, if_neg (Ne.symm hab),
          ← hlcs]
        cases find_lcs L a b with
        | none => rfl
        | some lcs =>
          simp only []
          rw [add_comm (information_content L logf a)
            (information_content L logf b)]

/-- C4 (witness): on `gWup` the LCS agrees in both directions (it is x in
both), so the conditional symmetry of LIN, RES, JCN applies, alongside the
unconditional WUP symmetry. -/
theorem c4_witness :
    find_lcs gWup "s1" "s2" = find_lcs gWup "s2" "s1" ∧
      wup_similarity gWup "s1" "s2" = wup_similarity gWup "s2" "s1" ∧
      lin_similarity gWup logW "s1" "s2" = lin_similarity gWup logW "s2" "s1" ∧
      res_similarity gWup logW "s1" "s2" = res_similarity gWup logW "s2" "s1" ∧
      jcn_similarity gWup logW "s1" "s2" = jcn_similarity gWup logW "s2" "s1" := by
  have h : find_lcs gWup "s1" "s2" = find_lcs gWup "s2" "s1" := by decide
  obtain ⟨h1, h2, h3⟩ := (c4_symmetry gWup logW "s1" "s2").2 h
  exact ⟨h, (c4_symmetry gWup logW "s1" "s2").1, h1, h2, h3⟩

/-- Helper: class characters are word characters. -/
theorem class_imp_word (c : Char) (h : is_class_char c = true) :
    is_word_char c = true := by
  simp [is_word_char, h]

/-- Helper: an all-class word is an all-word word. -/
theorem all_class_imp_all_word (w : List Char) (h : all_class w) : all_word w :=
  fun c hc => class_imp_word c (h c hc)

/-- Helper: the empty remainder has no word-character head. -/
theorem head_nonword_nil : head_nonword [] := by
  intro c hc
  cases hc

/-- Helper: a remainder starting with a non-word character. -/
theorem head_nonword_cons (c : Char) (l : List Char)
    (h : is_word_char c = false) : head_nonword (c :: l) := by
  intro x hx
  injection hx with hx
  rw [← hx]
  exact h

/-- Helper: the head condition on a nonempty remainder. -/
theorem head_nonword_cons_elim (c : Char) (l : List Char)
    (h : head_nonword (c :: l)) : is_word_char c = false :=
  h c rfl

/-- Helper: the empty extension is an all-word word. -/
theorem all_word_nil : all_word [] := fun c hc => absurd hc (List.not_mem_nil c)

/-- Helper: membership in the emitted singleton of a closed run. -/
theorem emit_mem_iff (acc w : List Char) :
    w ∈ emit_run acc ↔ w = acc.reverse ∧ w ≠ [] ∧ all_class w := by
  unfold emit_run
  by_cases h : (!(acc.reverse).isEmpty && (acc.reverse).all is_class_char) = true
  · rw [if_pos h, List.mem_singleton]
    simp only [Bool.and_eq_true, Bool.not_eq_true', List.isEmpty_eq_false,
      List.all_eq_true] at h
    constructor
    · intro heq
      refine ⟨heq, ?_, ?_⟩
      · rw [heq]
        exact h.1
      · rw [heq]
        exact h.2
    · exact fun hh => hh.1
  · rw [if_neg h]
    simp only [List.not_mem_nil, false_iff, not_and]
    intro heq hne hcl
    apply h
    simp only [Bool.and_eq_true, Bool.not_eq_true', List.isEmpty_eq_false,
      List.all_eq_true]
    exact ⟨by rw [← heq]; exact hne, by rw [← heq]; exact hcl⟩

/-- Helper: the regex-match characterisation of the scanner loop.  A word
is produced from state `(cs, acc)` exactly when it either closes the run
currently accumulated in `acc` (first disjunct: a word-character prefix of
`cs` followed by a boundary) or is a later match, preceded inside `cs` by
a non-word character (second disjunct). -/
theorem mem_lesk_runs_go (w : List Char) :
    ∀ (cs : List Char), ∀ (acc : List Char),
      w ∈ lesk_runs_go cs acc ↔
        ((∃ ext post, cs = ext ++ post ∧ all_word ext ∧ head_nonword post ∧
            w = acc.reverse ++ ext ∧ w ≠ [] ∧ all_class w) ∨
          (∃ pre0 d post, cs = pre0 ++ d :: (w ++ post) ∧
            is_word_char d = false ∧ w ≠ [] ∧ all_class w ∧
            head_nonword post)) := by
  intro cs
  induction cs with
  | nil =>
    intro acc
    rw [show lesk_runs_go [] acc = emit_run acc from rfl, emit_mem_iff]
    constructor
    · rintro ⟨heq, hne, hcl⟩
      refine Or.inl ⟨[], [], rfl, all_word_nil, head_nonword_nil, ?_, hne, hcl⟩
      rw [List.append_nil]
      exact heq
    · rintro (⟨ext, post, hsplit, _, _, heq, hne, hcl⟩ |
        ⟨pre0, d, post, hsplit, _, _, _, _⟩)
      · have hext : ext = [] ∧ post = [] := by
          have h2 := hsplit.symm
          simpa using h2
        rw [hext.1, List.append_nil] at heq
        exact ⟨heq, hne, hcl⟩
      · exact absurd hsplit.symm (by simp)
  | cons c cs ih =>
    intro acc
    by_cases hw : is_word_char c = true
    · rw [show lesk_runs_go (c :: cs) acc = lesk_runs_go cs (c :: acc) by
        simp [lesk_runs_go, hw], ih (c :: acc)]
      constructor
      · rintro (⟨ext, post, hsplit, hword, hpost, heq, hne, hcl⟩ |
          ⟨pre0, d, post, hsplit, hd, hne, hcl, hpost⟩)
        · refine Or.inl ⟨c :: ext, post, by rw [hsplit, List.cons_append], ?_,
            hpost, ?_, hne, hcl⟩
          · intro x hx
            rcases List.mem_cons.1 hx with hxc | hxe
            · rw [hxc]
              exact hw
            · exact hword x hxe
          · rw [heq, List.reverse_cons, List.append_assoc, List.singleton_append]
        · exact Or.inr ⟨c :: pre0, d, post, by rw [hsplit, List.cons_append],
            hd, hne, hcl, hpost⟩
      · rintro (⟨ext, post, hsplit, hword, hpost, heq, hne, hcl⟩ |
          ⟨pre0, d, post, hsplit, hd, hne, hcl, hpost⟩)
        · cases ext with
          | nil =>
            rw [List.nil_append] at hsplit
            have hcf : is_word_char c = false := by
              apply head_nonword_cons_elim c cs
              rw [hsplit]
              exact hpost
            rw [hcf] at hw
            cases hw
          | cons e ext' =>
            rw [List.cons_append] at hsplit
            injection hsplit with h1 h2
            refine Or.inl ⟨ext', post, h2, ?_, hpost, ?_, hne, hcl⟩
            · intro x hx
              exact hword x (List.mem_cons_of_mem e hx)
            · rw [heq, List.reverse_cons, List.append_assoc,
                List.singleton_append, h1]
        · cases pre0 with
          | nil =>
            rw [List.nil_append] at hsplit
            injection hsplit with h1 h2
            rw [h1, hd] at hw
            cases hw
          | cons p0 pre0' =>
            rw [List.cons_append] at hsplit
            injection hsplit with h1 h2
            exact Or.inr ⟨pre0', d, post, h2, hd, hne, hcl, hpost⟩
    · have hw' : is_word_char c = false := by
        rwa [Bool.not_eq_true] at hw
      rw [show lesk_runs_go (c :: cs) acc = emit_run acc ++ lesk_runs_go cs [] by
        simp [lesk_runs_go, hw'], List.mem_append, emit_mem_iff, ih []]
      constructor
      · rintro (⟨heq, hne, hcl⟩ |
          (⟨ext, post, hsplit, hword, hpost, heq, hne, hcl⟩ |
            ⟨pre0, d, post, hsplit, hd, hne, hcl, hpost⟩))
        · refine Or.inl ⟨[], c :: cs, rfl, all_word_nil,
            head_nonword_cons c cs hw', ?_, hne, hcl⟩
          rw [List.append_nil]
          exact heq
        · rw [List.reverse_nil, List.nil_append] at heq
          refine Or.inr ⟨[], c, post, ?_, hw', hne, hcl, hpost⟩
          rw [List.nil_append, hsplit, heq]
        · exact Or.inr ⟨c :: pre0, d, post, by rw [hsplit, List.cons_append],
            hd, hne, hcl, hpost⟩
      · rintro (⟨ext, post, hsplit, hword, hpost, heq, hne, hcl⟩ |
          ⟨pre0, d, post, hsplit, hd, hne, hcl, hpost⟩)
        · cases ext with
          | nil =>
            rw [List.append_nil] at heq
            exact Or.inl ⟨heq, hne, hcl⟩
          | cons e ext' =>
            rw [List.cons_append] at hsplit
            injection hsplit with h1 h2
            have hct : is_word_char c = true := by
              rw [h1]
              exact hword e (List.mem_cons_self e ext')
            rw [hct] at hw'
            cases hw'
        · cases pre0 with
          | nil =>
            rw [List.nil_append] at hsplit
            injection hsplit with h1 h2
            refine Or.inr (Or.inl ⟨w, post, h2, all_class_imp_all_word w hcl,
              hpost, by rw [List.reverse_nil, List.nil_append], hne, hcl⟩)
          | cons p0 pre0' =>
            rw [List.cons_append] at hsplit
            injection hsplit with h1 h2
            exact Or.inr (Or.inr ⟨pre0', d, post, h2, hd, hne, hcl, hpost⟩)

/-- Helper: the empty prefix has no word-character last character. -/
theorem last_nonword_nil : last_nonword [] := by
  intro c hc
  cases hc

/-- Helper: the matches of the tokenizer regex on a text are exactly the
nonempty all-class-character words flanked by non-word characters (or the
text ends). -/
theorem mem_lesk_runs (cs w : List Char) :
    w ∈ lesk_runs cs ↔
      ∃ pre post, cs = pre ++ (w ++ post) ∧ w ≠ [] ∧ all_class w ∧
        last_nonword pre ∧ head_nonword post := by
  rw [lesk_runs, mem_lesk_runs_go]
  constructor
  · rintro (⟨ext, post, hsplit, hword, hpost, heq, hne, hcl⟩ |
      ⟨pre0, d, post, hsplit, hd, hne, hcl, hpost⟩)
    · rw [List.reverse_nil, List.nil_append] at heq
      refine ⟨[], post, ?_, hne, hcl, last_nonword_nil, hpost⟩
      rw [List.nil_append, heq]
      exact hsplit
    · refine ⟨pre0 ++ [d], post, ?_, hne, hcl, ?_, hpost⟩
      · rw [hsplit, List.append_assoc, List.singleton_append]
      · intro x hx
        rw [List.getLast?_concat] at hx
        injection hx with hx
        rw [← hx]
        exact hd
  · rintro ⟨pre, post, hsplit, hne, hcl, hlast, hpost⟩
    rcases List.eq_nil_or_concat pre with hpre | ⟨pre0, d, hpre⟩
    · rw [hpre, List.nil_append] at hsplit
      exact Or.inl ⟨w, post, hsplit, all_class_imp_all_word w hcl, hpost,
        by rw [List.reverse_nil, List.nil_append], hne, hcl⟩
    · refine Or.inr ⟨pre0, d, post, ?_, ?_, hne, hcl, hpost⟩
      · rw [hsplit, hpre, List.concat_eq_append, List.append_assoc,
          List.singleton_append]
      · apply hlast
        rw [hpre, List.concat_eq_append, List.getLast?_concat]

/-- C5 (counterexample): the tokenizer the claim describes keeps
the word împărat whole (its letters include the Romanian diacritics
î and ă), but the code's regex class does not contain î (U+00EE, Latin-1),
and since î is still a word character no boundary exists inside the word,
so the code produces no token at all for this input. -/
theorem c5_counterexample :
    spec_lesk_tokenize "împărat".data = ["împărat".data] ∧
      lesk_tokenize "împărat".data = [] ∧
      lesk_tokenize "împărat".data ≠ spec_lesk_tokenize "împărat".data := by
  exact ⟨by decide, by decide, by decide⟩

/-- C5 (amended): tokenization lowercases the text and returns exactly the
nonempty maximal runs of characters of the regex class — ASCII letters and
Latin Extended-A (U+0100 to U+017F), which covers ă, ş, ţ but not â, î,
ș, ț — that are flanked by non-word characters or the text ends, dropping
stop words and tokens of length at most 2.  A letter run adjacent to any
other word character (a digit, an underscore, or a letter outside the
class such as â, î, ș, ț) yields no token at all rather than being split. -/
theorem c5_tokenize_characterisation (text w : List Char) :
    w ∈ lesk_tokenize text ↔
      ∃ pre post, text.map to_lower_m = pre ++ (w ++ post) ∧ w ≠ [] ∧
        all_class w ∧ last_nonword pre ∧ head_nonword post ∧
        w ∉ stop_words_l ∧ 2 < w.length := by
  have hkeep : (lesk_keep w = true) ↔ (w ∉ stop_words_l ∧ 2 < w.length) := by
    simp [lesk_keep]
  unfold lesk_tokenize
  rw [List.mem_dedup, List.mem_filter, mem_lesk_runs, hkeep]
  constructor
  · rintro ⟨⟨pre, post, hsplit, hne, hcl, hlast, hpost⟩, hstop, hlen⟩
    exact ⟨pre, post, hsplit, hne, hcl, hlast, hpost, hstop, hlen⟩
  · rintro ⟨pre, post, hsplit, hne, hcl, hlast, hpost, hstop, hlen⟩
    exact ⟨⟨pre, post, hsplit, hne, hcl, hlast, hpost⟩, hstop, hlen⟩

/-- Helper: a successful association-list lookup is a member pair. -/
theorem lookup_mem_pairs {β : Type} (tbl : List (Node × β)) (a : Node) (b : β)
    (h : tbl.lookup a = some b) : (a, b) ∈ tbl := by
  induction tbl with
  | nil => cases h
  | cons p rest ih =>
    obtain ⟨k, v⟩ := p
    rw [List.lookup] at h
    cases hak : (a == k) with
    | true =>
      rw [hak] at h
      injection h with h
      rw [← h, List.mem_cons]
      exact Or.inl (by rw [eq_of_beq hak])
    | false =>
      rw [hak] at h
      exact List.mem_cons_of_mem _ (ih h)

/-- Helper: a member of a member list is in the flattening. -/
theorem length_le_length_flatten {β : Type} (l : List β) (LL : List (List β))
    (h : l ∈ LL) : l.length ≤ LL.flatten.length := by
  induction LL with
  | nil => cases h
  | cons l0 rest ih =>
    rw [List.flatten_cons, List.length_append]
    rcases List.mem_cons.1 h with heq | hm
    · rw [heq]
      omega
    · have := ih hm
      omega

/-- Helper: hypernym targets are drawn from the hypernym table. -/
theorem mem_allHyperTargets (L : Loader) (x h : Node)
    (hm : h ∈ get_hypernyms L x) : h ∈ allHyperTargets L := by
  rw [get_hypernyms] at hm
  cases hl : L.hyper_tbl.lookup x with
  | none =>
    rw [hl] at hm
    cases hm
  | some l =>
    rw [hl] at hm
    rw [allHyperTargets, List.mem_flatten]
    exact ⟨l, List.mem_map_of_mem Prod.snd (lookup_mem_pairs _ _ _ hl), hm⟩

/-- Helper: a hypernym list is no longer than the whole target pool. -/
theorem length_get_hypernyms_le (L : Loader) (x : Node) :
    (get_hypernyms L x).length ≤ (allHyperTargets L).length := by
  rw [get_hypernyms]
  cases hl : L.hyper_tbl.lookup x with
  | none => simp
  | some l =>
    simp only [Option.getD_some]
    rw [allHyperTargets]
    exact length_le_length_flatten l _
      (List.mem_map_of_mem Prod.snd (lookup_mem_pairs _ _ _ hl))

/-- Helper: a hypernym path extended by one upward step. -/
theorem hyperPath_snoc (L : Loader) (s x h : Node) (n : Nat)
    (hp : HyperPath L s x n) (hh : h ∈ get_hypernyms L x) :
    HyperPath L s h (n + 1) := by
  induction hp with
  | refl z => exact HyperPath.step z h h 0 hh (HyperPath.refl h)
  | step a y z m hy hyz ih => exact HyperPath.step a y h (m + 1) hy (ih hh)

/-- Helper: a zero-length hypernym path joins a node to itself. -/
theorem hyperPath_zero (L : Loader) (x y : Node) (hp : HyperPath L x y 0) :
    x = y := by
  cases hp
  rfl

/-- Helper: last-step decomposition of a nonempty hypernym path. -/
theorem hyperPath_last_step (L : Loader) (s y : Node) (n : Nat)
    (hp : HyperPath L s y (n + 1)) :
    ∃ p, HyperPath L s p n ∧ y ∈ get_hypernyms L p := by
  induction n generalizing s with
  | zero =>
    cases hp with
    | step _ t _ _ ht htp =>
      have := hyperPath_zero L t y htp
      exact ⟨s, HyperPath.refl s, by rw [← this]; exact ht⟩
  | succ m ih =>
    cases hp with
    | step _ t _ _ ht htp =>
      obtain ⟨p, hpp, hyp⟩ := ih t htp
      exact ⟨p, HyperPath.step s t p m ht hpp, hyp⟩

/-- Helper: every reachable node has a minimal distance. -/
theorem sdist_exists (L : Loader) (s y : Node) (n : Nat)
    (h : HyperPath L s y n) : ∃ m, SDist L s y m ∧ m ≤ n := by
  classical
  have hex : ∃ m, HyperPath L s y m := ⟨n, h⟩
  exact ⟨Nat.find hex, ⟨Nat.find_spec hex, fun m hm => Nat.find_min' hex hm⟩,
    Nat.find_min' hex h⟩

/-- Helper: minimal distances are unique. -/
theorem sdist_unique (L : Loader) (s y : Node) (n m : Nat)
    (h1 : SDist L s y n) (h2 : SDist L s y m) : n = m :=
  le_antisymm (h1.2 m h2.1) (h2.2 n h1.1)

/-- Helper: predecessor on a shortest path. -/
theorem sdist_pred (L : Loader) (s y : Node) (n : Nat)
    (h : SDist L s y (n + 1)) :
    ∃ p, SDist L s p n ∧ y ∈ get_hypernyms L p := by
  obtain ⟨p, hpp, hyp⟩ := hyperPath_last_step L s y n h.1
  refine ⟨p, ⟨hpp, fun m hm => ?_⟩, hyp⟩
  by_contra hlt
  push_neg at hlt
  have : HyperPath L s y (m + 1) := hyperPath_snoc L s p y m hm hyp
  have := h.2 (m + 1) this
  omega

/-- Helper: when the queue is empty every reachable node has been visited
(the visited set is closed under hypernym steps and contains the start). -/
theorem reachable_in_visited (L : Loader) (v : List Node)
    (hcl : ∀ x ∈ v, ∀ h ∈ get_hypernyms L x, h ∈ v) :
    ∀ x y n, HyperPath L x y n → x ∈ v → y ∈ v := by
  intro x y n hp
  induction hp with
  | refl z => exact id
  | step a b c m hb hbc ih => exact fun ha => ih (hcl a ha b hb)

/-- Helper: visiting a fresh universe node decreases the unvisited count
by exactly one. -/
theorem filter_not_mem_cons_length (u v : List Node) (x : Node)
    (hx : x ∈ u) (hxv : x ∉ v) (hu : u.Nodup) :
    (u.filter (fun z => z ∉ v)).length =
      (u.filter (fun z => z ∉ x :: v)).length + 1 := by
  induction u with
  | nil => cases hx
  | cons y u ih =>
    have hnd := List.nodup_cons.1 hu
    rcases List.mem_cons.1 hx with heq | hxu
    · subst heq
      have hcong : List.filter (fun z => decide (z ∉ v)) u =
          List.filter (fun z => decide (z ∉ x :: v)) u := by
        apply List.filter_congr
        intro z hz
        have hzx : z ≠ x := fun h => hnd.1 (h ▸ hz)
        simp [List.mem_cons, hzx]
      simp only [List.filter_cons, hcong]
      have h1 : (decide (x ∉ v)) = true := by simp [hxv]
      have h2 : (decide (x ∉ x :: v)) = false := by simp
      rw [h1, h2]
      simp
    · have hyx : y ≠ x := fun h => hnd.1 (h ▸ hxu)
      have hrec := ih hxu hnd.2
      by_cases hyv : y ∈ v
      · have h1 : (decide (y ∉ v)) = false := by simp [hyv]
        have h2 : (decide (y ∉ x :: v)) = false := by simp [List.mem_cons, hyv]
        simp only [List.filter_cons, h1, h2, if_false, Bool.false_eq_true]
        simpa using hrec
      · have h1 : (decide (y ∉ v)) = true := by simp [hyv]
        have h2 : (decide (y ∉ x :: v)) = true := by
          simp [List.mem_cons, hyv, hyx]
        simp only [List.filter_cons, h1, h2, if_true, List.length_cons]
        simpa using hrec

/-- Helper: the conclusion of the depth search when the queue has drained:
the default depth 1 is returned and no root is reachable (every reachable
node is visited and no visited node is a root). -/
theorem depth_go_empty_conclusion (L : Loader) (s : Node) (fuel : Nat)
    (v : List Node)
    (hcl : ∀ x ∈ v, ∀ h ∈ get_hypernyms L x, h ∈ v)
    (hs : s ∈ v)
    (hnr : ∀ x ∈ v, ¬ is_root L x) :
    (¬ ∃ n r, HyperPath L s r n ∧ is_root L r) ∧ depth_go L fuel [] v = 1 := by
  constructor
  · rintro ⟨n, r, hp, hr⟩
    exact hnr r (reachable_in_visited L v hcl s r n hp hs) hr
  · cases fuel <;> rfl

/-- Helper: membership of a node among the queue's nodes. -/
theorem mem_map_fst (q : List (Node × Nat)) (y : Node) :
    y ∈ q.map Prod.fst ↔ ∃ k, (y, k) ∈ q := by
  constructor
  · intro h
    obtain ⟨e, he, heq⟩ := List.mem_map.1 h
    exact ⟨e.2, by rw [← heq]; exact he⟩
  · rintro ⟨k, hk⟩
    exact List.mem_map_of_mem Prod.fst hk

/-- Helper: the master invariant proof for the depth search.  The queue
is level-structured at `lvl`; visited nodes are non-roots; all nodes
closer than the frontier are visited and the frontier distance class is
in the queue; the visited set is closed up to queue membership.  Under
these invariants the search returns `1 + (shortest root distance)` when a
root is reachable and the default 1 otherwise. -/
theorem depth_go_correct (L : Loader) (s : Node) :
    ∀ (fuel : Nat) (q : List (Node × Nat)) (v : List Node) (lvl : Nat),
      (∀ e ∈ q, HyperPath L s e.1 (e.2 - 1) ∧ 1 ≤ e.2) →
      (∃ q1 q2, q = q1 ++ q2 ∧ (∀ e ∈ q1, e.2 = lvl) ∧
        (∀ e ∈ q2, e.2 = lvl + 1) ∧ (q1 = [] → q2 = [])) →
      (∀ y n, SDist L s y n → n + 1 < lvl → y ∈ v) →
      (∀ y n, SDist L s y n → n + 1 = lvl → y ∈ v ∨ (y, lvl) ∈ q) →
      (∀ x ∈ v, ¬ is_root L x) →
      (∀ x ∈ v, ∀ h ∈ get_hypernyms L x, h ∈ v ∨ h ∈ q.map Prod.fst) →
      (s ∈ v ∨ s ∈ q.map Prod.fst) →
      (∀ e ∈ q, e.1 ∈ s :: allHyperTargets L) →
      (((s :: allHyperTargets L).dedup.filter (fun z => z ∉ v)).length *
          ((allHyperTargets L).length + 2) + q.length ≤ fuel) →
      ((¬ ∃ n r, HyperPath L s r n ∧ is_root L r) ∧ depth_go L fuel q v = 1) ∨
        (∃ n, RootDist L s n ∧ depth_go L fuel q v = 1 + n) := by
  intro fuel
  induction fuel with
  | zero =>
    intro q v lvl hI1 hI2 hI3 hI4 hI5 hI6 hI7 hI9 hfuel
    have hq : q = [] := by
      cases q with
      | nil => rfl
      | cons e rest =>
        exfalso
        have h1 : (e :: rest).length ≤ 0 := le_trans (Nat.le_add_left _ _) hfuel
        simp at h1
    subst hq
    refine Or.inl (depth_go_empty_conclusion L s 0 v ?_ ?_ hI5)
    · intro p hp h hh
      rcases hI6 p hp h hh with h1 | h1
      · exact h1
      · simp at h1
    · rcases hI7 with h1 | h1
      · exact h1
      · simp at h1
  | succ f ih =>
    intro q v lvl hI1 hI2 hI3 hI4 hI5 hI6 hI7 hI9 hfuel
    obtain ⟨q1, q2, hsplit, hq1, hq2, hanchor⟩ := hI2
    cases q with
    | nil =>
      refine Or.inl (depth_go_empty_conclusion L s (f + 1) v ?_ ?_ hI5)
      · intro p hp h hh
        rcases hI6 p hp h hh with h1 | h1
        · exact h1
        · simp at h1
      · rcases hI7 with h1 | h1
        · exact h1
        · simp at h1
    | cons e rest =>
      obtain ⟨x, d⟩ := e
      cases q1 with
      | nil =>
        exfalso
        rw [hanchor rfl] at hsplit
        simp at hsplit
      | cons e1 q1' =>
        rw [List.cons_append] at hsplit
        injection hsplit with hhead hrest
        have hd : d = lvl := by
          have h0 := hq1 e1 (List.mem_cons_self e1 q1')
          rw [← hhead] at h0
          exact h0
        subst hd
        have hx_path : HyperPath L s x (d - 1) :=
          (hI1 (x, d) (List.mem_cons_self _ _)).1
        have hx_ge1 : 1 ≤ d := (hI1 (x, d) (List.mem_cons_self _ _)).2
        have hx_univ : x ∈ s :: allHyperTargets L :=
          hI9 (x, d) (List.mem_cons_self _ _)
        by_cases hxv : x ∈ v
        · -- skip an already-visited head
          have hstep : depth_go L (f + 1) ((x, d) :: rest) v =
              depth_go L f rest v := by
            simp [depth_go, hxv]
          rw [hstep]
          cases q1' with
          | cons e2 q1'' =>
            apply ih rest v d
            · exact fun e he => hI1 e (List.mem_cons_of_mem _ he)
            · exact ⟨e2 :: q1'', q2, hrest,
                fun e he => hq1 e (List.mem_cons_of_mem _ he), hq2,
                fun h => absurd h (List.cons_ne_nil _ _)⟩
            · exact hI3
            · intro y n hsd heq
              rcases hI4 y n hsd heq with h1 | h1
              · exact Or.inl h1
              · rcases List.mem_cons.1 h1 with h2 | h2
                · injection h2 with hy _
                  exact Or.inl (hy ▸ hxv)
                · exact Or.inr h2
            · exact hI5
            · intro p hp h hh
              rcases hI6 p hp h hh with h1 | h1
              · exact Or.inl h1
              · rw [List.map_cons] at h1
                rcases List.mem_cons.1 h1 with h2 | h2
                · exact Or.inl (h2 ▸ hxv)
                · exact Or.inr h2
            · rcases hI7 with h1 | h1
              · exact Or.inl h1
              · rw [List.map_cons] at h1
                rcases List.mem_cons.1 h1 with h2 | h2
                · exact Or.inl (h2 ▸ hxv)
                · exact Or.inr h2
            · exact fun e he => hI9 e (List.mem_cons_of_mem _ he)
            · have hlen : ((x, d) :: rest).length = rest.length + 1 := rfl
              rw [hlen] at hfuel
              omega
          | nil =>
            rw [List.nil_append] at hrest
            apply ih rest v (d + 1)
            · exact fun e he => hI1 e (List.mem_cons_of_mem _ he)
            · exact ⟨q2, [], by rw [hrest, List.append_nil], hq2,
                fun e he => absurd he (List.not_mem_nil e), fun _ => rfl⟩
            · intro y n hsd hlt
              by_cases hcase : n + 1 < d
              · exact hI3 y n hsd hcase
              · have heq : n + 1 = d := by omega
                rcases hI4 y n hsd heq with h1 | h1
                · exact h1
                · rcases List.mem_cons.1 h1 with h2 | h2
                  · injection h2 with hy _
                    exact hy ▸ hxv
                  · exfalso
                    rw [hrest] at h2
                    have h3 := hq2 (y, d) h2
                    simp at h3
            · intro y n hsd heq
              have hn : d = n := by omega
              subst hn
              have hsd2 : SDist L s y (d - 1 + 1) := by
                rw [show d - 1 + 1 = d from by omega]
                exact hsd
              obtain ⟨p, hsp, hyp⟩ := sdist_pred L s y (d - 1) hsd2
              have hpv : p ∈ v := by
                rcases hI4 p (d - 1) hsp (by omega) with h1 | h1
                · exact h1
                · rcases List.mem_cons.1 h1 with h2 | h2
                  · injection h2 with hy _
                    exact hy ▸ hxv
                  · exfalso
                    rw [hrest] at h2
                    have h3 := hq2 (p, d) h2
                    simp at h3
              rcases hI6 p hpv y hyp with h1 | h1
              · exact Or.inl h1
              · rw [List.map_cons] at h1
                rcases List.mem_cons.1 h1 with h2 | h2
                · exact Or.inl (h2 ▸ hxv)
                · obtain ⟨k, hk⟩ := (mem_map_fst rest y).1 h2
                  have hkval : k = d + 1 := by
                    rw [hrest] at hk
                    exact hq2 (y, k) hk
                  exact Or.inr (hkval ▸ hk)
            · exact hI5
            · intro p hp h hh
              rcases hI6 p hp h hh with h1 | h1
              · exact Or.inl h1
              · rw [List.map_cons] at h1
                rcases List.mem_cons.1 h1 with h2 | h2
                · exact Or.inl (h2 ▸ hxv)
                · exact Or.inr h2
            · rcases hI7 with h1 | h1
              · exact Or.inl h1
              · rw [List.map_cons] at h1
                rcases List.mem_cons.1 h1 with h2 | h2
                · exact Or.inl (h2 ▸ hxv)
                · exact Or.inr h2
            · exact fun e he => hI9 e (List.mem_cons_of_mem _ he)
            · have hlen : ((x, d) :: rest).length = rest.length + 1 := rfl
              rw [hlen] at hfuel
              omega
        · by_cases hroot : get_hypernyms L x = []
          · -- the head is an unvisited root: return its depth
            have hstep : depth_go L (f + 1) ((x, d) :: rest) v = d := by
              simp [depth_go, hxv, hroot]
            rw [hstep]
            right
            refine ⟨d - 1, ⟨⟨x, hx_path, hroot⟩, ?_⟩, by omega⟩
            intro k hk
            rintro ⟨r, hp, hr⟩
            obtain ⟨m, hm, hmle⟩ := sdist_exists L s r k hp
            exact hI5 r (hI3 r m hm (by omega)) hr
          · -- expand the unvisited head
            have hstep : depth_go L (f + 1) ((x, d) :: rest) v =
                depth_go L f
                  (rest ++ ((get_hypernyms L x).filter
                    (fun h => h ∉ x :: v)).map (fun h => (h, d + 1)))
                  (x :: v) := by
              simp [depth_go, hxv, hroot]
            rw [hstep]
            have hchild_path : ∀ h ∈ get_hypernyms L x, HyperPath L s h d := by
              intro h hh
              have h0 := hyperPath_snoc L s x h (d - 1) hx_path hh
              rwa [show d - 1 + 1 = d from by omega] at h0
            have hC_mem : ∀ e ∈ ((get_hypernyms L x).filter
                (fun h => h ∉ x :: v)).map (fun h => (h, d + 1)),
                ∃ h, h ∈ get_hypernyms L x ∧ h ∉ x :: v ∧ e = (h, d + 1) := by
              intro e he
              obtain ⟨h, hh, heq⟩ := List.mem_map.1 he
              obtain ⟨hh1, hh2⟩ := List.mem_filter.1 hh
              exact ⟨h, hh1, by simpa using hh2, heq.symm⟩
            have hC_in : ∀ h ∈ get_hypernyms L x, h ∉ x :: v →
                (h, d + 1) ∈ ((get_hypernyms L x).filter
                  (fun h => h ∉ x :: v)).map (fun h => (h, d + 1)) := by
              intro h hh hnv
              exact List.mem_map_of_mem _
                (List.mem_filter.2 ⟨hh, by simpa using hnv⟩)
            have hI1' : ∀ e ∈ rest ++ ((get_hypernyms L x).filter
                (fun h => h ∉ x :: v)).map (fun h => (h, d + 1)),
                HyperPath L s e.1 (e.2 - 1) ∧ 1 ≤ e.2 := by
              intro e he
              rcases List.mem_append.1 he with h1 | h1
              · exact hI1 e (List.mem_cons_of_mem _ h1)
              · obtain ⟨h, hh, _, heq⟩ := hC_mem e h1
                rw [heq]
                exact ⟨by simpa using hchild_path h hh, by omega⟩
            have hI5' : ∀ p ∈ x :: v, ¬ is_root L p := by
              intro p hp
              rcases List.mem_cons.1 hp with h1 | h1
              · rw [h1]
                exact fun hr => hroot hr
              · exact hI5 p h1
            have hI9' : ∀ e ∈ rest ++ ((get_hypernyms L x).filter
                (fun h => h ∉ x :: v)).map (fun h => (h, d + 1)),
                e.1 ∈ s :: allHyperTargets L := by
              intro e he
              rcases List.mem_append.1 he with h1 | h1
              · exact hI9 e (List.mem_cons_of_mem _ h1)
              · obtain ⟨h, hh, _, heq⟩ := hC_mem e h1
                rw [heq]
                exact List.mem_cons_of_mem _ (mem_allHyperTargets L x h hh)
            have hI6' : ∀ p ∈ x :: v, ∀ h ∈ get_hypernyms L p,
                h ∈ x :: v ∨ h ∈ (rest ++ ((get_hypernyms L x).filter
                  (fun h => h ∉ x :: v)).map (fun h => (h, d + 1))).map
                    Prod.fst := by
              intro p hp h hh
              rcases List.mem_cons.1 hp with h1 | h1
              · by_cases hin : h ∈ x :: v
                · exact Or.inl hin
                · refine Or.inr ((mem_map_fst _ h).2 ⟨d + 1,
                    List.mem_append_right _ (hC_in h (by rw [← h1]; exact hh)
                      hin)⟩)
              · rcases hI6 p h1 h hh with h2 | h2
                · exact Or.inl (List.mem_cons_of_mem _ h2)
                · rw [List.map_cons] at h2
                  rcases List.mem_cons.1 h2 with h3 | h3
                  · exact Or.inl (by rw [h3]; exact List.mem_cons_self _ _)
                  · refine Or.inr ?_
                    rw [List.map_append]
                    exact List.mem_append_left _ h3
            have hI7' : s ∈ x :: v ∨ s ∈ (rest ++ ((get_hypernyms L x).filter
                (fun h => h ∉ x :: v)).map (fun h => (h, d + 1))).map
                  Prod.fst := by
              rcases hI7 with h1 | h1
              · exact Or.inl (List.mem_cons_of_mem _ h1)
              · rw [List.map_cons] at h1
                rcases List.mem_cons.1 h1 with h2 | h2
                · exact Or.inl (by rw [h2]; exact List.mem_cons_self _ _)
                · refine Or.inr ?_
                  rw [List.map_append]
                  exact List.mem_append_left _ h2
            have hfuel' : ((s :: allHyperTargets L).dedup.filter
                (fun z => z ∉ x :: v)).length *
                  ((allHyperTargets L).length + 2) +
                (rest ++ ((get_hypernyms L x).filter
                  (fun h => h ∉ x :: v)).map (fun h => (h, d + 1))).length ≤
                f := by
              have hcnt := filter_not_mem_cons_length
                ((s :: allHyperTargets L).dedup) v x (List.mem_dedup.2 hx_univ)
                hxv (List.nodup_dedup _)
              have hClen : (((get_hypernyms L x).filter
                  (fun h => h ∉ x :: v)).map (fun h => (h, d + 1))).length ≤
                  (allHyperTargets L).length := by
                rw [List.length_map]
                exact le_trans (List.length_filter_le _ _)
                  (length_get_hypernyms_le L x)
              rw [List.length_append]
              rw [hcnt] at hfuel
              have hexp : (((s :: allHyperTargets L).dedup.filter
                  (fun z => z ∉ x :: v)).length + 1) *
                    ((allHyperTargets L).length + 2) =
                  ((s :: allHyperTargets L).dedup.filter
                    (fun z => z ∉ x :: v)).length *
                      ((allHyperTargets L).length + 2) +
                    ((allHyperTargets L).length + 2) := by
                ring
              rw [hexp] at hfuel
              have hlen : ((x, d) :: rest).length = rest.length + 1 := rfl
              rw [hlen] at hfuel
              omega
            cases q1' with
            | cons e2 q1'' =>
              apply ih _ _ d hI1' ?_ ?_ ?_ hI5' hI6' hI7' hI9' hfuel'
              · refine ⟨e2 :: q1'', q2 ++ ((get_hypernyms L x).filter
                  (fun h => h ∉ x :: v)).map (fun h => (h, d + 1)),
                  by rw [hrest, List.append_assoc],
                  fun e he => hq1 e (List.mem_cons_of_mem _ he), ?_,
                  fun h => absurd h (List.cons_ne_nil _ _)⟩
                intro e he
                rcases List.mem_append.1 he with h1 | h1
                · exact hq2 e h1
                · obtain ⟨h, _, _, heq⟩ := hC_mem e h1
                  rw [heq]
              · exact fun y n hsd hlt => List.mem_cons_of_mem _
                  (hI3 y n hsd hlt)
              · intro y n hsd heq
                rcases hI4 y n hsd heq with h1 | h1
                · exact Or.inl (List.mem_cons_of_mem _ h1)
                · rcases List.mem_cons.1 h1 with h2 | h2
                  · injection h2 with hy _
                    exact Or.inl (by rw [hy]; exact List.mem_cons_self _ _)
                  · exact Or.inr (List.mem_append_left _ h2)
            | nil =>
              rw [List.nil_append] at hrest
              apply ih _ _ (d + 1) hI1' ?_ ?_ ?_ hI5' hI6' hI7' hI9' hfuel'
              · refine ⟨rest ++ ((get_hypernyms L x).filter
                  (fun h => h ∉ x :: v)).map (fun h => (h, d + 1)), [],
                  by rw [List.append_nil], ?_,
                  fun e he => absurd he (List.not_mem_nil e), fun _ => rfl⟩
                intro e he
                rcases List.mem_append.1 he with h1 | h1
                · rw [hrest] at h1
                  exact hq2 e h1
                · obtain ⟨h, _, _, heq⟩ := hC_mem e h1
                  rw [heq]
              · intro y n hsd hlt
                by_cases hcase : n + 1 < d
                · exact List.mem_cons_of_mem _ (hI3 y n hsd hcase)
                · have heq : n + 1 = d := by omega
                  rcases hI4 y n hsd heq with h1 | h1
                  · exact List.mem_cons_of_mem _ h1
                  · rcases List.mem_cons.1 h1 with h2 | h2
                    · injection h2 with hy _
                      rw [hy]
                      exact List.mem_cons_self _ _
                    · exfalso
                      rw [hrest] at h2
                      have h3 := hq2 (y, d) h2
                      simp at h3
              · intro y n hsd heq
                have hn : d = n := by omega
                subst hn
                have hsd2 : SDist L s y (d - 1 + 1) := by
                  rw [show d - 1 + 1 = d from by omega]
                  exact hsd
                obtain ⟨p, hsp, hyp⟩ := sdist_pred L s y (d - 1) hsd2
                have hpvx : p ∈ v ∨ p = x := by
                  rcases hI4 p (d - 1) hsp (by omega) with h1 | h1
                  · exact Or.inl h1
                  · rcases List.mem_cons.1 h1 with h2 | h2
                    · injection h2 with hy _
                      exact Or.inr hy
                    · exfalso
                      rw [hrest] at h2
                      have h3 := hq2 (p, d) h2
                      simp at h3
                rcases hpvx with hpv | hpx
                · rcases hI6 p hpv y hyp with h1 | h1
                  · exact Or.inl (List.mem_cons_of_mem _ h1)
                  · rw [List.map_cons] at h1
                    rcases List.mem_cons.1 h1 with h2 | h2
                    · exact Or.inl (by rw [h2]; exact List.mem_cons_self _ _)
                    · obtain ⟨k, hk⟩ := (mem_map_fst rest y).1 h2
                      have hkval : k = d + 1 := by
                        rw [hrest] at hk
                        exact hq2 (y, k) hk
                      exact Or.inr (List.mem_append_left _ (hkval ▸ hk))
                · by_cases hin : y ∈ x :: v
                  · exact Or.inl hin
                  · exact Or.inr (List.mem_append_right _
                      (hC_in y (by rw [← hpx]; exact hyp) hin))

/-- C7: depth is always at least 1; a synset with no hypernyms has depth
exactly 1; when some root is reachable, depth is 1 plus the shortest
number of hypernym hops to a root; and when no root is reachable (cycle
or disconnected data) the depth defaults to 1. -/
theorem c7_depth (L : Loader) (s : Node) :
    1 ≤ get_depth L s ∧
      (is_root L s → get_depth L s = 1) ∧
      (∀ n, RootDist L s n → get_depth L s = 1 + n) ∧
      ((∀ n r, ¬ (HyperPath L s r n ∧ is_root L r)) → get_depth L s = 1) := by
  have harg1 : ∀ e ∈ [((s : Node), 1)], HyperPath L s e.1 (e.2 - 1) ∧ 1 ≤ e.2 := by
    intro e he
    rcases List.mem_cons.1 he with h1 | h1
    · rw [h1]
      exact ⟨HyperPath.refl s, le_refl 1⟩
    · cases h1
  have harg2 : ∃ q1 q2, [((s : Node), 1)] = q1 ++ q2 ∧ (∀ e ∈ q1, e.2 = 1) ∧
      (∀ e ∈ q2, e.2 = 1 + 1) ∧ (q1 = [] → q2 = []) := by
    refine ⟨[(s, 1)], [], rfl, ?_, ?_, fun _ => rfl⟩
    · intro e he
      rcases List.mem_cons.1 he with h1 | h1
      · rw [h1]
      · cases h1
    · intro e he
      cases he
  have harg3 : ∀ y n, SDist L s y n → n + 1 < 1 → y ∈ ([] : List Node) := by
    intro y n _ hlt
    omega
  have harg4 : ∀ y n, SDist L s y n → n + 1 = 1 →
      y ∈ ([] : List Node) ∨ (y, 1) ∈ [((s : Node), 1)] := by
    intro y n hsd heq
    have hn : n = 0 := by omega
    rw [hn] at hsd
    have h0 := hyperPath_zero L s y hsd.1
    rw [← h0]
    exact Or.inr (List.mem_cons_self _ _)
  have harg7 : s ∈ ([] : List Node) ∨
      s ∈ ([((s : Node), 1)]).map Prod.fst := by
    right
    simp
  have harg9 : ∀ e ∈ [((s : Node), 1)], e.1 ∈ s :: allHyperTargets L := by
    intro e he
    rcases List.mem_cons.1 he with h1 | h1
    · rw [h1]
      exact List.mem_cons_self _ _
    · cases h1
  have hargF : ((s :: allHyperTargets L).dedup.filter
      (fun z => z ∉ ([] : List Node))).length *
      ((allHyperTargets L).length + 2) + ([((s : Node), 1)]).length ≤
      depth_fuel L s := by
    have hfe : ((s :: allHyperTargets L).dedup.filter
        (fun z => z ∉ ([] : List Node))) =
        (s :: allHyperTargets L).dedup := by
      simp
    rw [hfe, depth_fuel]
    have hexp : ((s :: allHyperTargets L).dedup.length + 1) *
        ((allHyperTargets L).length + 2) =
        (s :: allHyperTargets L).dedup.length *
          ((allHyperTargets L).length + 2) +
          ((allHyperTargets L).length + 2) := by
      ring
    rw [hexp]
    simp only [List.length_cons, List.length_nil]
    omega
  have hmain := depth_go_correct L s (depth_fuel L s) [(s, 1)] [] 1
    harg1 harg2 harg3 harg4
    (fun x hx => absurd hx (List.not_mem_nil x))
    (fun x hx => absurd hx (List.not_mem_nil x))
    harg7 harg9 hargF
  have hgd : get_depth L s =
      depth_go L (depth_fuel L s) [(s, 1)] [] := rfl
  refine ⟨?_, ?_, ?_, ?_⟩
  · rcases hmain with ⟨_, h⟩ | ⟨n, _, h⟩ <;> rw [hgd, h] <;> omega
  · intro hroot
    rcases hmain with ⟨_, h⟩ | ⟨n, hrd, h⟩
    · rw [hgd, h]
    · have hn : n = 0 := by
        by_contra hne
        exact hrd.2 0 (by omega) ⟨s, HyperPath.refl s, hroot⟩
      rw [hgd, h, hn]
  · intro n hrd
    rcases hmain with ⟨hno, _⟩ | ⟨n', hrd', h⟩
    · exfalso
      obtain ⟨r, hp, hr⟩ := hrd.1
      exact hno ⟨n, r, hp, hr⟩
    · have heq : n = n' := by
        by_contra hne
        rcases Nat.lt_or_ge n n' with h1 | h1
        · exact hrd'.2 n h1 hrd.1
        · have h2 : n' < n := by omega
          exact hrd.2 n' h2 hrd'.1
      rw [hgd, h, heq]
  · intro hno
    rcases hmain with ⟨_, h⟩ | ⟨n, hrd, h⟩
    · rw [hgd, h]
    · exfalso
      obtain ⟨r, hp, hr⟩ := hrd.1
      exact hno n r ⟨hp, hr⟩

/-- C7 (witness): on the concrete graph with chain s → t (t a root) and a
self-loop u, the root case, the shortest-distance case and the
no-reachable-root default are all exercised. -/
theorem c7_witness :
    (is_root gDepthW "t" ∧ get_depth gDepthW "t" = 1) ∧
      (RootDist gDepthW "s" 1 ∧ get_depth gDepthW "s" = 1 + 1) ∧
      ((∀ n r, ¬ (HyperPath gDepthW "u" r n ∧ is_root gDepthW r)) ∧
        get_depth gDepthW "u" = 1) := by
  have hroot_t : is_root gDepthW "t" := by decide
  have hpath : HyperPath gDepthW "s" "t" 1 :=
    HyperPath.step "s" "t" "t" 0 (by decide) (HyperPath.refl "t")
  have hrd : RootDist gDepthW "s" 1 := by
    refine ⟨⟨"t", hpath, by decide⟩, ?_⟩
    intro k hk
    rintro ⟨r, hp, hr⟩
    have hk0 : k = 0 := by omega
    rw [hk0] at hp
    have hsr := hyperPath_zero gDepthW "s" r hp
    rw [← hsr] at hr
    exact absurd hr (by decide)
  have huniv : ∀ x r n, HyperPath gDepthW x r n → x = "u" → r = "u" := by
    intro x r n hp
    induction hp with
    | refl z => exact fun h => h
    | step a y z m hy _ ih =>
      intro ha
      apply ih
      rw [ha] at hy
      have hu : get_hypernyms gDepthW "u" = ["u"] := by decide
      rw [hu] at hy
      simpa using hy
  have hnoroot : ∀ n r, ¬ (HyperPath gDepthW "u" r n ∧ is_root gDepthW r) := by
    intro n r
    rintro ⟨hp, hr⟩
    have := huniv "u" r n hp rfl
    rw [this] at hr
    exact absurd hr (by decide)
  exact ⟨⟨hroot_t, (c7_depth gDepthW "t").2.1 hroot_t⟩,
    ⟨hrd, (c7_depth gDepthW "s").2.2.1 1 hrd⟩,
    ⟨hnoroot, (c7_depth gDepthW "u").2.2.2 hnoroot⟩⟩
